import Mathlib

/-!
Verification development for the garuda-desktop ingestion engine.

The definitions below are a shallow embedding of the TypeScript source:

* the recursive directory scanner with cooperative cancellation
  (`collectFilesRecursive`, `hashFileSha256`, `buildIngestionPlan` and the
  `scan-folder` IPC handler in `src/main/index.ts`);
* the dry-run probe (`dry-run-stream-open` handler, `classifyFsError`,
  `probeReadStream`);
* the deterministic rename planner and its validation
  (`mappingPlan` in the renderer) and the execution dry-run readiness
  computation (`handleRunExecutionDryRun`);
* the streaming executor (`execute-filesystem-stream-plan` handler,
  `projectUploadExistsBySha256`, `insertProjectUploadSuccess`,
  `updateSlotCurrentSequence`, `finalizeSlotSequences`).

Filesystem and remote-store I/O is modelled by explicit outcome values
(`Except String _`) supplied as inputs, the remote ledger and the per-slot
sequence counters are modelled as explicit state, and the shared mutable
cancellation flag is modelled by the index of the cooperative cancellation
check from which the flag reads true (the flag is only ever set, never
cleared, during a scan, and JavaScript's event loop lets it change only at
await points, which are always followed by another check).
-/

namespace Garuda

/-! ### String ordering

The renderer sorts with `a.localeCompare(b)`; we model this as the
lexicographic order on the code points of the strings. -/

/-- Boolean lexicographic order on lists of characters. -/
def charListLe : List Char → List Char → Bool
  | [], _ => true
  | _ :: _, [] => false
  | a :: as, b :: bs => if a = b then charListLe as bs else decide (a < b)

/-- Boolean string order modelling the `localeCompare`-based comparators. -/
def strLe (a b : String) : Bool := charListLe a.data b.data

theorem charListLe_total : ∀ a b, charListLe a b = true ∨ charListLe b a = true := by
  intro a
  induction a with
  | nil => intro b; left; rfl
  | cons c cs ih =>
    intro b
    cases b with
    | nil => right; rfl
    | cons d ds =>
      simp only [charListLe]
      by_cases h : c = d
      · subst h; simpa using ih ds
      · have h2 : ¬ d = c := fun hh => h hh.symm
        rcases lt_trichotomy c d with h1 | h1 | h1
        · left; simp [h, h1]
        · exact absurd h1 h
        · right; simp [h2, h1]

theorem charListLe_trans :
    ∀ a b c, charListLe a b = true → charListLe b c = true → charListLe a c = true := by
  intro a
  induction a with
  | nil => intro b c _ _; rfl
  | cons x xs ih =>
    intro b c hab hbc
    cases b with
    | nil => simp [charListLe] at hab
    | cons y ys =>
      cases c with
      | nil => simp [charListLe] at hbc
      | cons z zs =>
        simp only [charListLe] at hab hbc ⊢
        by_cases hxy : x = y
        · subst hxy
          simp only [if_pos rfl] at hab
          by_cases hyz : x = z
          · subst hyz
            simp only [if_pos rfl] at hbc ⊢
            exact ih ys zs hab hbc
          · simp only [if_neg hyz] at hbc ⊢
            exact hbc
        · simp only [if_neg hxy] at hab
          by_cases hyz : y = z
          · subst hyz
            simp [if_neg hxy, hab]
          · simp only [if_neg hyz] at hbc
            have hxz : x < z := lt_trans (of_decide_eq_true hab) (of_decide_eq_true hbc)
            have hne : ¬ x = z := ne_of_lt hxz
            simp [if_neg hne, hxz]

/-- Propositional form of `strLe`, used as sorting relation. -/
def strLeP (a b : String) : Prop := strLe a b = true

instance : DecidableRel strLeP := fun _ _ => instDecidableEqBool _ _

instance : IsTotal String strLeP :=
  ⟨fun a b => charListLe_total a.data b.data⟩

instance : IsTrans String strLeP :=
  ⟨fun a b c hab hbc => charListLe_trans a.data b.data c.data hab hbc⟩

/-! ### Scanner data model (`src/main/index.ts`) -/

/-- Result of classifying a file extension, as in `detectFileType`. -/
inductive DetectedFileType where
  | image
  | video
  | other
deriving DecidableEq

/-- Scanned file record, as the `PlannedFile` type of the main process. -/
structure PlannedFile where
  name : String
  fullPath : String
  relativePath : String
  parentRelativePath : String
  size : Nat
  extension : String
  fileType : DetectedFileType
  sha256 : String
deriving DecidableEq

/-- Folder aggregate, as the `FolderGroup` type; the three `typeCounts`
fields are flattened into one field per file type. -/
structure FolderGroup where
  relativePath : String
  fileCount : Nat
  totalBytes : Nat
  typeImage : Nat
  typeVideo : Nat
  typeOther : Nat
deriving DecidableEq

/-- Scan output, as the `IngestionPlan` type.  The wall-clock `scannedAt`
timestamp is omitted from the model. -/
structure IngestionPlan where
  rootFolder : String
  totalFiles : Nat
  totalBytes : Nat
  folderGroups : List FolderGroup
  files : List PlannedFile
deriving DecidableEq

/-- Scan outcome, as the `ScanResult` union type of the main process. -/
inductive ScanResult where
  | ok (plan : IngestionPlan)
  | failure (error : String)
deriving DecidableEq

/-- Discriminant of `ScanResult`, the `success` field of the union. -/
def ScanResult.success : ScanResult → Bool
  | .ok _ => true
  | .failure _ => false

@[simp]
theorem ScanResult.success_ok (p : IngestionPlan) : (ScanResult.ok p).success = true := rfl

@[simp]
theorem ScanResult.success_failure (e : String) : (ScanResult.failure e).success = false := rfl

/-! Filesystem tree supplied to the scanner.  Each file node carries the
outcome of `fs.promises.stat` (its size, or an error), the number of data
chunks its hashing stream emits, and the outcome of hashing (the hex
digest, or a stream error); each directory node carries the outcome of
`fs.promises.readdir`.  `other` stands for an entry that is neither a
regular file nor a directory (a symbolic link, for instance), which the
scanner skips. -/
mutual
inductive FsNode where
  | file (name : String) (statRes : Except String Nat) (hashChunks : Nat)
      (hashRes : Except String String)
  | dir (name : String) (readRes : Except String Unit) (entries : FsList)
  | other (name : String)
inductive FsList where
  | nil
  | cons (head : FsNode) (tail : FsList)
end

/-- Model of the shared mutable `ScanControl.cancelled` flag: `none` means
the flag is never set during the scan; `some c` means every cooperative
cancellation check from the `c`-th one (0-based) onward sees the flag set. -/
abbrev CancelFlag := Option Nat

/-- Cooperative cancellation check, as `ensureNotCancelled` (and the
per-chunk flag test inside `hashFileSha256`); `k` is the 0-based index of
this check within the scan. -/
def checkCancel (flag : CancelFlag) (k : Nat) : Except String Unit :=
  match flag with
  | none => Except.ok ()
  | some c => if c ≤ k then Except.error "Scan cancelled by user" else Except.ok ()

/-- Per-chunk cancellation checks of the hashing stream: one check per data
chunk, threading the check counter. -/
def hashChunksLoop (flag : CancelFlag) : Nat → Nat → Except String Nat
  | k, 0 => Except.ok k
  | k, n + 1 =>
    match checkCancel flag k with
    | Except.error msg => Except.error msg
    | Except.ok () => hashChunksLoop flag (k + 1) n

/-- Model of `hashFileSha256`: a cancellation check when the promise body
starts, one check per data chunk, then the outcome of the hash stream. -/
def hashFileSha256 (flag : CancelFlag) (k : Nat) (hashChunks : Nat)
    (hashRes : Except String String) : Except String (String × Nat) :=
  match checkCancel flag k with
  | Except.error msg => Except.error msg
  | Except.ok () =>
    match hashChunksLoop flag (k + 1) hashChunks with
    | Except.error msg => Except.error msg
    | Except.ok k' =>
      match hashRes with
      | Except.error msg => Except.error msg
      | Except.ok h => Except.ok (h, k')

/-- Directory names the scanner ignores, as `shouldIgnoreDirectory`
(the `HIDDEN_FOLDERS` set plus any dot-prefixed name). -/
def shouldIgnoreDirectory (name : String) : Bool :=
  decide (name = ".git") || decide (name = "node_modules") ||
    (match name.data with
     | '.' :: _ => true
     | _ => false)

/-- File names the scanner ignores, as `shouldIgnoreFile`. -/
def shouldIgnoreFile (name : String) : Bool := decide (name = ".DS_Store")

/-- Suffix of a character list starting at its last dot, if any. -/
def extSuffix : List Char → Option (List Char)
  | [] => none
  | c :: cs =>
    match extSuffix cs with
    | some suf => some suf
    | none => if c = '.' then some (c :: cs) else none

/-- Model of `path.extname` on a plain basename: the substring from the
last dot, where a dot in first position does not start an extension. -/
def extnameOf (name : String) : String :=
  match name.data with
  | [] => ""
  | _ :: rest =>
    match extSuffix rest with
    | some suf => String.mk suf
    | none => ""

/-- Lower-casing of a string, as `String.prototype.toLowerCase` on the
ASCII names involved. -/
def lowerStr (s : String) : String := String.mk (s.data.map Char.toLower)

/-- Image extension set of the scanner. -/
def imageExtensions : List String :=
  [".jpg", ".jpeg", ".png", ".gif", ".webp", ".bmp", ".tif", ".tiff",
   ".heic", ".heif", ".dng", ".arw", ".cr2", ".cr3", ".nef", ".orf", ".rw2"]

/-- Video extension set of the scanner. -/
def videoExtensions : List String :=
  [".mp4", ".mov", ".mkv", ".avi", ".mxf", ".mts", ".m2ts", ".r3d",
   ".braw", ".prores", ".webm"]

/-- Model of `detectFileType`. -/
def detectFileType (ext : String) : DetectedFileType :=
  if imageExtensions.any fun e => decide (e = ext) then DetectedFileType.image
  else if videoExtensions.any fun e => decide (e = ext) then DetectedFileType.video
  else DetectedFileType.other

/-- Relative path of a child within the scanned tree (`path.relative` of
the joined path). -/
def childRel (rel name : String) : String :=
  if rel = "" then name else rel ++ "/" ++ name

/-- Scanned-file record pushed by `collectFilesRecursive` for one regular
file. -/
def mkPlannedFile (root rel name : String) (size : Nat) (sha : String) : PlannedFile :=
  { name := name
    fullPath := root ++ "/" ++ childRel rel name
    relativePath := childRel rel name
    parentRelativePath := if rel = "" then "/" else rel
    size := size
    extension := lowerStr (extnameOf name)
    fileType := detectFileType (lowerStr (extnameOf name))
    sha256 := sha }

/-! Model of `collectFilesRecursive`.  `collectEntries` is the `for` loop
over one directory's entries (with its leading per-entry cancellation
check); `collectNode` handles a single entry.  `rel` is the relative path
of the current folder (`""` at the root), `k` the cancellation-check
counter, `acc` the collector.  Any error aborts the whole recursion, as in
the source, where no per-file try/catch exists. -/
mutual
def collectNode (flag : CancelFlag) (root : String) :
    FsNode → String → Nat → List PlannedFile → Except String (List PlannedFile × Nat)
  | FsNode.dir name readRes entries, rel, k, acc =>
    if shouldIgnoreDirectory name then Except.ok (acc, k)
    else
      match checkCancel flag k with
      | Except.error msg => Except.error msg
      | Except.ok () =>
        match readRes with
        | Except.error msg => Except.error msg
        | Except.ok () => collectEntries flag root entries (childRel rel name) (k + 1) acc
  | FsNode.other _, _, k, acc => Except.ok (acc, k)
  | FsNode.file name statRes hashChunks hashRes, rel, k, acc =>
    if shouldIgnoreFile name then Except.ok (acc, k)
    else
      match statRes with
      | Except.error msg => Except.error msg
      | Except.ok size =>
        match hashFileSha256 flag k hashChunks hashRes with
        | Except.error msg => Except.error msg
        | Except.ok (sha, k') =>
          Except.ok (acc ++ [mkPlannedFile root rel name size sha], k')
def collectEntries (flag : CancelFlag) (root : String) :
    FsList → String → Nat → List PlannedFile → Except String (List PlannedFile × Nat)
  | FsList.nil, _, k, acc => Except.ok (acc, k)
  | FsList.cons e rest, rel, k, acc =>
    match checkCancel flag k with
    | Except.error msg => Except.error msg
    | Except.ok () =>
      match collectNode flag root e rel (k + 1) acc with
      | Except.error msg => Except.error msg
      | Except.ok (acc', k') => collectEntries flag root rest rel k' acc'
end

/-! Number of cancellation checks a complete, uncancelled traversal of one
entry performs. -/
mutual
def checksNode : FsNode → Nat
  | FsNode.file name _ hashChunks _ =>
    if shouldIgnoreFile name then 0 else 1 + hashChunks
  | FsNode.dir name _ entries =>
    if shouldIgnoreDirectory name then 0 else 1 + checksEntries entries
  | FsNode.other _ => 0
def checksEntries : FsList → Nat
  | FsList.nil => 0
  | FsList.cons e rest => 1 + checksNode e + checksEntries rest
end

/-- Total number of cancellation checks of a complete, uncancelled scan:
the check entering the root traversal, the checks of the traversal, and the
final check in `buildIngestionPlan`. -/
def checksTotal (entries : FsList) : Nat := 2 + checksEntries entries

/-! Predicate: every stat, hash and readdir outcome that the traversal
would consult is a success («the tree has no per-file or per-directory
I/O error»). -/
mutual
def nodeOk : FsNode → Bool
  | FsNode.file name statRes _ hashRes =>
    if shouldIgnoreFile name then true
    else
      (match statRes with | Except.ok _ => true | Except.error _ => false) &&
      (match hashRes with | Except.ok _ => true | Except.error _ => false)
  | FsNode.dir name readRes entries =>
    if shouldIgnoreDirectory name then true
    else
      (match readRes with | Except.ok _ => true | Except.error _ => false) &&
      entriesOk entries
  | FsNode.other _ => true
def entriesOk : FsList → Bool
  | FsList.nil => true
  | FsList.cons e rest => nodeOk e && entriesOk rest
end

/-- Sum of the sizes of the scanned files (`files.reduce((sum, f) => sum + f.size, 0)`). -/
def totalBytesOf (files : List PlannedFile) : Nat :=
  files.foldl (fun s f => s + f.size) 0

/-- Adds one scanned file to the insertion-ordered folder aggregation map
(the `groupsMap` loop of `buildIngestionPlan`). -/
def addToGroups : List FolderGroup → PlannedFile → List FolderGroup
  | [], f =>
    [{ relativePath := f.parentRelativePath
       fileCount := 1
       totalBytes := f.size
       typeImage := if f.fileType = DetectedFileType.image then 1 else 0
       typeVideo := if f.fileType = DetectedFileType.video then 1 else 0
       typeOther := if f.fileType = DetectedFileType.other then 1 else 0 }]
  | g :: gs, f =>
    if g.relativePath = f.parentRelativePath then
      { g with
        fileCount := g.fileCount + 1
        totalBytes := g.totalBytes + f.size
        typeImage := g.typeImage + (if f.fileType = DetectedFileType.image then 1 else 0)
        typeVideo := g.typeVideo + (if f.fileType = DetectedFileType.video then 1 else 0)
        typeOther := g.typeOther + (if f.fileType = DetectedFileType.other then 1 else 0) } :: gs
    else g :: addToGroups gs f

/-- Sorting relation on folder groups (`localeCompare` on `relativePath`). -/
def groupLe (a b : FolderGroup) : Prop := strLeP a.relativePath b.relativePath

instance : DecidableRel groupLe := fun _ _ => instDecidableEqBool _ _

/-- Model of `buildIngestionPlan`: the entry cancellation check of the root
`collectFilesRecursive` call, the root `readdir`, the traversal, the final
`ensureNotCancelled`, then the folder aggregation. -/
def buildIngestionPlan (flag : CancelFlag) (root : String)
    (rootRead : Except String Unit) (entries : FsList) : Except String IngestionPlan :=
  match checkCancel flag 0 with
  | Except.error msg => Except.error msg
  | Except.ok () =>
    match rootRead with
    | Except.error msg => Except.error msg
    | Except.ok () =>
      match collectEntries flag root entries "" 1 [] with
      | Except.error msg => Except.error msg
      | Except.ok (files, k) =>
        match checkCancel flag k with
        | Except.error msg => Except.error msg
        | Except.ok () =>
          Except.ok
            { rootFolder := root
              totalFiles := files.length
              totalBytes := totalBytesOf files
              folderGroups := List.insertionSort groupLe (files.foldl addToGroups [])
              files := files }

/-- Model of the `scan-folder` IPC handler: a thrown error of any kind is
caught and turned into a failure result. -/
def scanFolder (flag : CancelFlag) (root : String) (rootRead : Except String Unit)
    (entries : FsList) : ScanResult :=
  match buildIngestionPlan flag root rootRead entries with
  | Except.ok plan => ScanResult.ok plan
  | Except.error msg => ScanResult.failure msg

/-! ### Scanner lemmas -/

/-- Success discriminant of an `Except` outcome. -/
def isOkE {α : Type} : Except String α → Bool
  | Except.ok _ => true
  | Except.error _ => false

theorem checkCancel_none (k : Nat) : checkCancel none k = Except.ok () := rfl

theorem checkCancel_some_ok {c k : Nat} (h : checkCancel (some c) k = Except.ok ()) :
    k < c := by
  simp only [checkCancel] at h
  by_cases hc : c ≤ k
  · simp [hc] at h
  · omega

theorem checkCancel_error_msg {flag : CancelFlag} {k : Nat} {e : String}
    (h : checkCancel flag k = Except.error e) : e = "Scan cancelled by user" := by
  cases flag with
  | none => simp [checkCancel] at h
  | some c =>
    simp only [checkCancel] at h
    by_cases hc : c ≤ k
    · simp [hc] at h; exact h.symm
    · simp [hc] at h

theorem hashChunksLoop_ok {flag : CancelFlag} :
    ∀ {n k k' : Nat}, hashChunksLoop flag k n = Except.ok k' → k' = k + n := by
  intro n
  induction n with
  | zero => intro k k' h; simp [hashChunksLoop] at h; omega
  | succ m ih =>
    intro k k' h
    simp only [hashChunksLoop] at h
    cases hc : checkCancel flag k with
    | error e => rw [hc] at h; exact absurd h (by simp)
    | ok u => rw [hc] at h; cases u; have := ih h; omega

theorem hashChunksLoop_none (n : Nat) : ∀ k, hashChunksLoop none k n = Except.ok (k + n) := by
  induction n with
  | zero => intro k; simp [hashChunksLoop]
  | succ m ih => intro k; simp only [hashChunksLoop, checkCancel_none]; rw [ih]; congr 1; omega

theorem hashChunksLoop_error_msg {flag : CancelFlag} :
    ∀ {n k : Nat} {e : String}, hashChunksLoop flag k n = Except.error e →
      e = "Scan cancelled by user" := by
  intro n
  induction n with
  | zero => intro k e h; simp [hashChunksLoop] at h
  | succ m ih =>
    intro k e h
    simp only [hashChunksLoop] at h
    cases hc : checkCancel flag k with
    | error msg =>
      rw [hc] at h
      have hmsg := checkCancel_error_msg hc
      simp at h
      exact h ▸ hmsg
    | ok u => rw [hc] at h; cases u; exact ih h

theorem hashFileSha256_ok {flag : CancelFlag} {k chunks : Nat}
    {hashRes : Except String String} {h : String} {k' : Nat}
    (hh : hashFileSha256 flag k chunks hashRes = Except.ok (h, k')) :
    k' = k + 1 + chunks := by
  simp only [hashFileSha256] at hh
  cases hc : checkCancel flag k with
  | error e => rw [hc] at hh; exact absurd hh (by simp)
  | ok u =>
    cases u
    rw [hc] at hh
    cases hl : hashChunksLoop flag (k + 1) chunks with
    | error e => rw [hl] at hh; exact absurd hh (by simp)
    | ok k2 =>
      rw [hl] at hh
      have := hashChunksLoop_ok hl
      cases hashRes with
      | error e => exact absurd hh (by simp)
      | ok hv => simp at hh; omega

mutual
theorem collectNode_count {flag : CancelFlag} {root : String} :
    ∀ (e : FsNode) (rel : String) (k : Nat) (acc fs : List PlannedFile) (k' : Nat),
      collectNode flag root e rel k acc = Except.ok (fs, k') → k' = k + checksNode e
  | FsNode.dir name readRes entries, rel, k, acc, fs, k', h => by
    simp only [collectNode, checksNode] at h ⊢
    by_cases hig : shouldIgnoreDirectory name
    · simp [hig] at h ⊢; omega
    · simp only [hig, if_false, Bool.false_eq_true] at h ⊢
      cases hc : checkCancel flag k with
      | error e => rw [hc] at h; exact absurd h (by simp)
      | ok u =>
        cases u; rw [hc] at h
        cases readRes with
        | error e => exact absurd h (by simp)
        | ok u2 =>
          cases u2
          have := collectEntries_count entries (childRel rel name) (k + 1) acc fs k' h
          omega
  | FsNode.other name, rel, k, acc, fs, k', h => by
    simp only [collectNode, checksNode] at h ⊢
    simp at h; omega
  | FsNode.file name statRes hashChunks hashRes, rel, k, acc, fs, k', h => by
    simp only [collectNode, checksNode] at h ⊢
    by_cases hig : shouldIgnoreFile name
    · simp [hig] at h ⊢; omega
    · simp only [hig, if_false, Bool.false_eq_true] at h ⊢
      cases statRes with
      | error e => exact absurd h (by simp)
      | ok size =>
        cases hh : hashFileSha256 flag k hashChunks hashRes with
        | error e => rw [hh] at h; exact absurd h (by simp)
        | ok p =>
          rw [hh] at h
          obtain ⟨sha, k2⟩ := p
          have := hashFileSha256_ok hh
          simp at h
          omega
theorem collectEntries_count {flag : CancelFlag} {root : String} :
    ∀ (l : FsList) (rel : String) (k : Nat) (acc fs : List PlannedFile) (k' : Nat),
      collectEntries flag root l rel k acc = Except.ok (fs, k') → k' = k + checksEntries l
  | FsList.nil, rel, k, acc, fs, k', h => by
    simp only [collectEntries, checksEntries] at h ⊢
    simp at h; omega
  | FsList.cons e rest, rel, k, acc, fs, k', h => by
    simp only [collectEntries, checksEntries] at h ⊢
    cases hc : checkCancel flag k with
    | error msg => rw [hc] at h; exact absurd h (by simp)
    | ok u =>
      cases u; rw [hc] at h
      cases hn : collectNode flag root e rel (k + 1) acc with
      | error msg => rw [hn] at h; exact absurd h (by simp)
      | ok p =>
        rw [hn] at h
        obtain ⟨acc', k1⟩ := p
        have h1 := collectNode_count e rel (k + 1) acc acc' k1 hn
        have h2 := collectEntries_count rest rel k1 acc' fs k' h
        omega
end

mutual
theorem collectNode_none_isOk {root : String} :
    ∀ (e : FsNode) (rel : String) (k : Nat) (acc : List PlannedFile),
      isOkE (collectNode none root e rel k acc) = nodeOk e
  | FsNode.dir name readRes entries, rel, k, acc => by
    simp only [collectNode, nodeOk, checkCancel_none]
    by_cases hig : shouldIgnoreDirectory name
    · simp [hig, isOkE]
    · simp only [hig, if_false, Bool.false_eq_true]
      cases readRes with
      | error e => simp [isOkE]
      | ok u => cases u; simp [collectEntries_none_isOk entries (childRel rel name) (k + 1) acc]
  | FsNode.other name, rel, k, acc => by
    simp [collectNode, nodeOk, isOkE]
  | FsNode.file name statRes hashChunks hashRes, rel, k, acc => by
    simp only [collectNode, nodeOk]
    by_cases hig : shouldIgnoreFile name
    · simp [hig, isOkE]
    · simp only [hig, if_false, Bool.false_eq_true]
      cases statRes with
      | error e => simp [isOkE]
      | ok size =>
        simp only [hashFileSha256, checkCancel_none, hashChunksLoop_none]
        cases hashRes with
        | error e => simp [isOkE]
        | ok h => simp [isOkE]
theorem collectEntries_none_isOk {root : String} :
    ∀ (l : FsList) (rel : String) (k : Nat) (acc : List PlannedFile),
      isOkE (collectEntries none root l rel k acc) = entriesOk l
  | FsList.nil, rel, k, acc => by simp [collectEntries, entriesOk, isOkE]
  | FsList.cons e rest, rel, k, acc => by
    simp only [collectEntries, entriesOk, checkCancel_none]
    cases hn : collectNode none root e rel (k + 1) acc with
    | error msg =>
      have := @collectNode_none_isOk root e rel (k + 1) acc
      rw [hn] at this
      simp [isOkE] at this
      simp [isOkE, ← this]
    | ok p =>
      obtain ⟨acc', k1⟩ := p
      have := @collectNode_none_isOk root e rel (k + 1) acc
      rw [hn] at this
      simp [isOkE] at this
      simp [← this, collectEntries_none_isOk rest rel k1 acc']
end

mutual
theorem collectNode_error_msg {flag : CancelFlag} {root : String} :
    ∀ (e : FsNode) (rel : String) (k : Nat) (acc : List PlannedFile) (msg : String),
      nodeOk e = true → collectNode flag root e rel k acc = Except.error msg →
        msg = "Scan cancelled by user"
  | FsNode.dir name readRes entries, rel, k, acc, msg => by
    intro hok h
    simp only [collectNode, nodeOk] at h hok
    by_cases hig : shouldIgnoreDirectory name
    · simp [hig] at h
    · simp only [hig, if_false, Bool.false_eq_true] at h hok
      cases hc : checkCancel flag k with
      | error e2 =>
        rw [hc] at h
        simp at h
        exact h ▸ checkCancel_error_msg hc
      | ok u =>
        cases u; rw [hc] at h
        cases readRes with
        | error e2 => simp at hok
        | ok u2 =>
          cases u2
          simp at hok
          exact collectEntries_error_msg entries (childRel rel name) (k + 1) acc msg hok h
  | FsNode.other name, rel, k, acc, msg => by
    intro hok h
    simp [collectNode] at h
  | FsNode.file name statRes hashChunks hashRes, rel, k, acc, msg => by
    intro hok h
    simp only [collectNode, nodeOk] at h hok
    by_cases hig : shouldIgnoreFile name
    · simp [hig] at h
    · simp only [hig, if_false, Bool.false_eq_true] at h hok
      cases statRes with
      | error e2 => simp at hok
      | ok size =>
        simp only [hashFileSha256] at h
        cases hc : checkCancel flag k with
        | error e2 =>
          rw [hc] at h
          simp at h
          exact h ▸ checkCancel_error_msg hc
        | ok u =>
          cases u; rw [hc] at h
          cases hl : hashChunksLoop flag (k + 1) hashChunks with
          | error e2 =>
            rw [hl] at h
            simp at h
            exact h ▸ hashChunksLoop_error_msg hl
          | ok k2 =>
            rw [hl] at h
            cases hashRes with
            | error e2 => simp at hok
            | ok hv => simp at h
theorem collectEntries_error_msg {flag : CancelFlag} {root : String} :
    ∀ (l : FsList) (rel : String) (k : Nat) (acc : List PlannedFile) (msg : String),
      entriesOk l = true → collectEntries flag root l rel k acc = Except.error msg →
        msg = "Scan cancelled by user"
  | FsList.nil, rel, k, acc, msg => by
    intro hok h
    simp [collectEntries] at h
  | FsList.cons e rest, rel, k, acc, msg => by
    intro hok h
    simp only [collectEntries, entriesOk] at h hok
    simp only [Bool.and_eq_true] at hok
    cases hc : checkCancel flag k with
    | error e2 =>
      rw [hc] at h
      simp at h
      exact h ▸ checkCancel_error_msg hc
    | ok u =>
      cases u; rw [hc] at h
      cases hn : collectNode flag root e rel (k + 1) acc with
      | error msg2 =>
        rw [hn] at h
        simp at h
        exact h ▸ collectNode_error_msg e rel (k + 1) acc msg2 hok.1 hn
      | ok p =>
        rw [hn] at h
        obtain ⟨acc', k1⟩ := p
        exact collectEntries_error_msg rest rel k1 acc' msg hok.2 h
end

theorem buildIngestionPlan_ok_bound {c : Nat} {root : String} {rr : Except String Unit}
    {entries : FsList} {p : IngestionPlan}
    (h : buildIngestionPlan (some c) root rr entries = Except.ok p) :
    checksTotal entries ≤ c := by
  simp only [buildIngestionPlan] at h
  cases hc0 : checkCancel (some c) 0 with
  | error msg => rw [hc0] at h; exact absurd h (by simp)
  | ok u =>
    cases u; rw [hc0] at h
    cases rr with
    | error msg => exact absurd h (by simp)
    | ok u2 =>
      cases u2
      cases hcol : collectEntries (some c) root entries "" 1 [] with
      | error msg => rw [hcol] at h; exact absurd h (by simp)
      | ok q =>
        rw [hcol] at h
        obtain ⟨files, k⟩ := q
        simp only at h
        have hk := collectEntries_count entries "" 1 [] files k hcol
        cases hcf : checkCancel (some c) k with
        | error msg => rw [hcf] at h; exact absurd h (by simp)
        | ok u3 =>
          have := checkCancel_some_ok hcf
          simp only [checksTotal]
          omega

theorem buildIngestionPlan_error_msg {flag : CancelFlag} {root : String}
    {entries : FsList} {msg : String}
    (hok : entriesOk entries = true)
    (h : buildIngestionPlan flag root (Except.ok ()) entries = Except.error msg) :
    msg = "Scan cancelled by user" := by
  simp only [buildIngestionPlan] at h
  cases hc0 : checkCancel flag 0 with
  | error e =>
    rw [hc0] at h
    simp at h
    exact h ▸ checkCancel_error_msg hc0
  | ok u =>
    cases u; rw [hc0] at h
    cases hcol : collectEntries flag root entries "" 1 [] with
    | error e =>
      rw [hcol] at h
      simp at h
      exact h ▸ collectEntries_error_msg entries "" 1 [] e hok hcol
    | ok q =>
      rw [hcol] at h
      obtain ⟨files, k⟩ := q
      simp only at h
      cases hcf : checkCancel flag k with
      | error e =>
        rw [hcf] at h
        simp at h
        exact h ▸ checkCancel_error_msg hcf
      | ok u2 => rw [hcf] at h; exact absurd h (by simp)

/-! ### Claim C5 -/

/-- Single file whose `stat` fails, in an otherwise healthy tree. -/
def c5BadFile : FsNode :=
  FsNode.file "a.jpg" (Except.error "EACCES: permission denied") 0 (Except.ok "deadbeef")

/-- Healthy sibling file of `c5BadFile`. -/
def c5GoodFile : FsNode := FsNode.file "b.jpg" (Except.ok 3) 1 (Except.ok "cafe01")

/-- Two-file root directory: one file with a stat error, one readable. -/
def c5Tree : FsList := FsList.cons c5BadFile (FsList.cons c5GoodFile FsList.nil)

/-- Same root directory with only the readable file. -/
def c5TreeGoodOnly : FsList := FsList.cons c5GoodFile FsList.nil

/-- C5 counterexample: a per-file stat error on one file does not merely
skip that file — the whole scan returns a failure result (no inventory at
all), although the same scan with only the readable file succeeds.  This
refutes the claim that a per-file I/O error never causes the whole scan to
fail and that all other readable files still appear in the result. -/
theorem c5_counterexample :
    scanFolder none "/media/shoot" (Except.ok ()) c5Tree =
      ScanResult.failure "EACCES: permission denied" ∧
    (scanFolder none "/media/shoot" (Except.ok ()) c5TreeGoodOnly).success = true :=
  ⟨rfl, rfl⟩

/-- C5 (amended): in the absence of cancellation, a scan returns a success
result if and only if the root readdir and every visited file's stat and
hash succeed; any per-file I/O error aborts the entire scan with a failure
result instead of skipping the file. -/
theorem c5_per_file_error_aborts_scan (root : String) (rootRead : Except String Unit)
    (entries : FsList) :
    (scanFolder none root rootRead entries).success = true ↔
      (isOkE rootRead && entriesOk entries) = true := by
  simp only [scanFolder, buildIngestionPlan, checkCancel_none]
  cases rootRead with
  | error msg => simp [isOkE]
  | ok u =>
    cases u
    have hco := @collectEntries_none_isOk root entries "" 1 []
    cases hcol : collectEntries none root entries "" 1 [] with
    | error msg =>
      rw [hcol] at hco
      simp only [isOkE] at hco
      simp [isOkE, ← hco, ScanResult.success]
    | ok q =>
      rw [hcol] at hco
      obtain ⟨files, k⟩ := q
      simp only [isOkE] at hco
      simp [isOkE, ← hco, checkCancel_none, ScanResult.success]

/-- C5 witness: the amended theorem applied to the concrete two-file tree
with one unreadable file. -/
theorem c5_per_file_error_aborts_scan_witness :
    (scanFolder none "/media/shoot" (Except.ok ()) c5Tree).success = false := by
  have h := c5_per_file_error_aborts_scan "/media/shoot" (Except.ok ()) c5Tree
  exact Bool.eq_false_iff.mpr fun hs => absurd (h.mp hs) (by decide)

/-! ### Claim C6 -/

/-- C6: if the shared cancellation flag becomes set at any cooperative
check before the scan's last one — that is, during the scan, including
mid-hash of a file — the scan never returns a success result; and on a
tree without I/O errors the reported failure is exactly the distinct
cancellation outcome. -/
theorem c6_cancelled_scan_never_success (c : Nat) (root : String)
    (rootRead : Except String Unit) (entries : FsList)
    (hlt : c < checksTotal entries) :
    (scanFolder (some c) root rootRead entries).success = false ∧
    (rootRead = Except.ok () → entriesOk entries = true →
      scanFolder (some c) root rootRead entries =
        ScanResult.failure "Scan cancelled by user") := by
  constructor
  · cases hb : buildIngestionPlan (some c) root rootRead entries with
    | ok p => exact absurd (buildIngestionPlan_ok_bound hb) (by omega)
    | error msg => simp only [scanFolder, hb]; rfl
  · intro hroot hok
    subst hroot
    cases hb : buildIngestionPlan (some c) root (Except.ok ()) entries with
    | ok p => exact absurd (buildIngestionPlan_ok_bound hb) (by omega)
    | error msg =>
      have := buildIngestionPlan_error_msg hok hb
      simp [scanFolder, hb, this]

/-- Small tree for the C6 witness: one video file hashed in two chunks. -/
def c6Tree : FsList :=
  FsList.cons (FsNode.file "clip.mp4" (Except.ok 7) 2 (Except.ok "beef33")) FsList.nil

/-- C6 witness: cancelling at check index 3 — the second hash chunk of the
file, mid-hash — yields the distinct cancellation failure. -/
theorem c6_cancelled_scan_never_success_witness :
    scanFolder (some 3) "/media/shoot" (Except.ok ()) c6Tree =
      ScanResult.failure "Scan cancelled by user" := by
  have h := c6_cancelled_scan_never_success 3 "/media/shoot" (Except.ok ()) c6Tree (by decide)
  exact h.2 rfl (by decide)

/-! ### Dry-run probe (`dry-run-stream-open` handler) -/

/-- Error classes of the dry-run probe, as the `DryRunErrorType` union. -/
inductive DryRunErrorType where
  | missing
  | permission
  | unreadable
  | zero_byte
  | hash_mismatch
deriving DecidableEq

/-- Filesystem error value: the optional `code` property of the thrown
error and its message. -/
structure FsError where
  code : Option String
  message : String
deriving DecidableEq

/-- Model of `classifyFsError`. -/
def classifyFsError (e : FsError) : DryRunErrorType :=
  match e.code with
  | some c =>
    if c = "ENOENT" then DryRunErrorType.missing
    else if c = "EACCES" ∨ c = "EPERM" then DryRunErrorType.permission
    else DryRunErrorType.unreadable
  | none => DryRunErrorType.unreadable

/-- Request item of the probe, as `DryRunRequestItem`. -/
structure DryRunRequestItem where
  sourcePath : String
  expectedSizeBytes : Nat
deriving DecidableEq

/-- Relevant outcome of `fs.promises.stat`: whether the path is a regular
file, and its size. -/
structure StatInfo where
  isFile : Bool
  size : Nat
deriving DecidableEq

/-- I/O outcomes the probe may consult for one path: the stat outcome and
the outcome of `probeReadStream` (open-and-close of a read stream).  The
probe has no access to file contents or hashes: no such data exists in
this model. -/
structure ProbeOutcome where
  statRes : Except FsError StatInfo
  openRes : Except FsError Unit

/-- Result record of the probe, as `DryRunFileResult`. -/
structure DryRunFileResult where
  sourcePath : String
  ok : Bool
  errorType : Option DryRunErrorType
  message : Option String
  expectedSizeBytes : Nat
  currentSizeBytes : Option Nat
deriving DecidableEq

/-- Model of the per-item body of the `dry-run-stream-open` handler. -/
def probeOne (item : DryRunRequestItem) (pe : ProbeOutcome) : DryRunFileResult :=
  match pe.statRes with
  | Except.error e =>
    { sourcePath := item.sourcePath, ok := false
      errorType := some (classifyFsError e), message := some e.message
      expectedSizeBytes := item.expectedSizeBytes, currentSizeBytes := none }
  | Except.ok st =>
    if st.isFile = false then
      { sourcePath := item.sourcePath, ok := false
        errorType := some DryRunErrorType.unreadable
        message := some "Path is not a regular file."
        expectedSizeBytes := item.expectedSizeBytes, currentSizeBytes := none }
    else if st.size = 0 then
      { sourcePath := item.sourcePath, ok := false
        errorType := some DryRunErrorType.zero_byte
        message := some "File size is zero bytes."
        expectedSizeBytes := item.expectedSizeBytes, currentSizeBytes := some st.size }
    else if st.size ≠ item.expectedSizeBytes then
      { sourcePath := item.sourcePath, ok := false
        errorType := some DryRunErrorType.hash_mismatch
        message := some ("Expected " ++ toString item.expectedSizeBytes ++
          " bytes, found " ++ toString st.size ++ " bytes.")
        expectedSizeBytes := item.expectedSizeBytes, currentSizeBytes := some st.size }
    else
      match pe.openRes with
      | Except.error e =>
        { sourcePath := item.sourcePath, ok := false
          errorType := some (classifyFsError e), message := some e.message
          expectedSizeBytes := item.expectedSizeBytes, currentSizeBytes := none }
      | Except.ok () =>
        { sourcePath := item.sourcePath, ok := true
          errorType := none, message := none
          expectedSizeBytes := item.expectedSizeBytes, currentSizeBytes := some st.size }

/-- Model of the `dry-run-stream-open` handler: one result per item, in
order (the enclosing `{ success: true, results }` wrapper is elided). -/
def dryRunStreamOpen (items : List (DryRunRequestItem × ProbeOutcome)) :
    List DryRunFileResult :=
  items.map fun p => probeOne p.1 p.2

/-! ### Claim C8 -/

/-- C8 counterexample: a probe item whose stat succeeds (regular file of
the expected nonzero size) but whose read-stream open fails with `ENOENT`
(the file vanished between stat and open) is classified `missing`, not
`unreadable`; open failures run through the same code-based classification
as stat failures, contradicting «'unreadable' for any other failure». -/
theorem c8_counterexample :
    (probeOne ⟨"/media/shoot/x.jpg", 5⟩
        ⟨Except.ok ⟨true, 5⟩,
         Except.error ⟨some "ENOENT", "ENOENT: no such file or directory, open"⟩⟩).errorType =
      some DryRunErrorType.missing ∧
    DryRunErrorType.missing ≠ DryRunErrorType.unreadable :=
  ⟨rfl, by decide⟩

/-- C8 (amended): the i-th probe result is computed from the i-th item
alone; it is ok exactly when the path stats as a regular file of nonzero
size equal to `expectedSizeBytes` and the read stream opens; stat failures
and open failures alike are classified by error code (`ENOENT` → missing,
`EACCES`/`EPERM` → permission, anything else → unreadable), a non-file is
unreadable, size 0 is zero_byte, and a size differing from
`expectedSizeBytes` is hash_mismatch.  The probe consults no file content
and no hash: `ProbeOutcome` carries only stat and open outcomes. -/
theorem c8_probe_classification (l : List (DryRunRequestItem × ProbeOutcome)) (i : Nat)
    (item : DryRunRequestItem) (pe : ProbeOutcome)
    (hget : l.get? i = some (item, pe)) :
    (dryRunStreamOpen l).get? i = some (probeOne item pe) ∧
    ((probeOne item pe).ok = true ↔
      ∃ st, pe.statRes = Except.ok st ∧ st.isFile = true ∧ st.size ≠ 0 ∧
        st.size = item.expectedSizeBytes ∧ pe.openRes = Except.ok ()) ∧
    (∀ e, pe.statRes = Except.error e →
      (probeOne item pe).errorType = some (classifyFsError e)) ∧
    (∀ st, pe.statRes = Except.ok st → st.isFile = false →
      (probeOne item pe).errorType = some DryRunErrorType.unreadable) ∧
    (∀ st, pe.statRes = Except.ok st → st.isFile = true → st.size = 0 →
      (probeOne item pe).errorType = some DryRunErrorType.zero_byte) ∧
    (∀ st, pe.statRes = Except.ok st → st.isFile = true → st.size ≠ 0 →
      st.size ≠ item.expectedSizeBytes →
      (probeOne item pe).errorType = some DryRunErrorType.hash_mismatch) ∧
    (∀ st e, pe.statRes = Except.ok st → st.isFile = true → st.size ≠ 0 →
      st.size = item.expectedSizeBytes → pe.openRes = Except.error e →
      (probeOne item pe).errorType = some (classifyFsError e)) ∧
    (∀ e, (e.code = some "ENOENT" → classifyFsError e = DryRunErrorType.missing) ∧
      ((e.code = some "EACCES" ∨ e.code = some "EPERM") →
        classifyFsError e = DryRunErrorType.permission) ∧
      (e.code = none → classifyFsError e = DryRunErrorType.unreadable)) := by
  refine ⟨?_, ?_, ?_, ?_, ?_, ?_, ?_, ?_⟩
  · simp only [dryRunStreamOpen, List.get?_map, hget]; rfl
  · constructor
    · intro hok
      cases hst : pe.statRes with
      | error e => simp [probeOne, hst] at hok
      | ok st =>
        refine ⟨st, rfl, ?_⟩
        by_cases hf : st.isFile = false
        · simp [probeOne, hst, hf] at hok
        · have hf2 : st.isFile = true := by
            cases hq : st.isFile
            · exact absurd hq hf
            · rfl
          by_cases hz : st.size = 0
          · simp [probeOne, hst, hf, hz] at hok
          · by_cases hm : st.size = item.expectedSizeBytes
            · cases hop : pe.openRes with
              | error e =>
                have hz2 : item.expectedSizeBytes ≠ 0 := hm ▸ hz
                simp [probeOne, hst, hf, hz, hz2, hm, hop] at hok
              | ok u => cases u; exact ⟨hf2, hz, hm, rfl⟩
            · simp [probeOne, hst, hf, hz, hm] at hok
    · rintro ⟨st, hst, hf, hz, hm, hop⟩
      have hz2 : item.expectedSizeBytes ≠ 0 := hm ▸ hz
      simp [probeOne, hst, hf, hz, hz2, hm, hop]
  · intro e hst
    simp [probeOne, hst]
  · intro st hst hf
    simp [probeOne, hst, hf]
  · intro st hst hf hz
    simp [probeOne, hst, hf, hz]
  · intro st hst hf hz hm
    simp [probeOne, hst, hf, hz, hm]
  · intro st e hst hf hz hm hop
    have hz2 : item.expectedSizeBytes ≠ 0 := hm ▸ hz
    simp [probeOne, hst, hf, hz, hz2, hm, hop]
  · intro e
    refine ⟨?_, ?_, ?_⟩
    · intro hc; simp [classifyFsError, hc]
    · rintro (hc | hc) <;> simp [classifyFsError, hc]
    · intro hc; simp [classifyFsError, hc]

/-- C8 witness: the amended classification applied to a one-item probe
whose file stats at the expected size but is not openable (permission
denied at open). -/
theorem c8_probe_classification_witness :
    (dryRunStreamOpen [(⟨"/media/a.jpg", 4⟩,
        ⟨Except.ok ⟨true, 4⟩, Except.error ⟨some "EACCES", "EACCES: permission denied, open"⟩⟩)]).get? 0 =
      some (probeOne ⟨"/media/a.jpg", 4⟩
        ⟨Except.ok ⟨true, 4⟩, Except.error ⟨some "EACCES", "EACCES: permission denied, open"⟩⟩) ∧
    (probeOne ⟨"/media/a.jpg", 4⟩
        ⟨Except.ok ⟨true, 4⟩, Except.error ⟨some "EACCES", "EACCES: permission denied, open"⟩⟩).errorType =
      some DryRunErrorType.permission := by
  have h := c8_probe_classification
    [(⟨"/media/a.jpg", 4⟩,
      ⟨Except.ok ⟨true, 4⟩, Except.error ⟨some "EACCES", "EACCES: permission denied, open"⟩⟩)]
    0 ⟨"/media/a.jpg", 4⟩
    ⟨Except.ok ⟨true, 4⟩, Except.error ⟨some "EACCES", "EACCES: permission denied, open"⟩⟩ rfl
  refine ⟨h.1, ?_⟩
  exact h.2.2.2.2.2.2.1 ⟨true, 4⟩ ⟨some "EACCES", "EACCES: permission denied, open"⟩
    rfl rfl (by decide) rfl rfl

/-! ### Rename planning (`mappingPlan` in the renderer) -/

/-- Per-slot mapping summary, as `SlotMappingSummary` (type counts
flattened); `plannedFiles` is the slot's assigned files in accumulation
order. -/
structure SlotMappingSummary where
  slotId : String
  slotLabel : String
  fileCount : Nat
  totalBytes : Nat
  typeImage : Nat
  typeVideo : Nat
  typeOther : Nat
  plannedFiles : List PlannedFile
deriving DecidableEq

/-- Naming configuration of one slot, as `SlotNamingConfig`; `pfx` models
the `prefix` field and `pad` the `padding` field. -/
structure SlotNamingConfig where
  slotId : String
  slotLabel : String
  pfx : String
  pad : Nat
deriving DecidableEq

/-- Rename plan entry, as `RenamePlanItem`. -/
structure RenamePlanItem where
  slotId : String
  slotLabel : String
  sourcePath : String
  sourceFilename : String
  oldFilename : String
  oldRelativePath : String
  plannedName : String
  plannedSequence : Nat
  plannedFilename : String
  sha256 : String
  sizeBytes : Nat
deriving DecidableEq

/-- Model of `String.prototype.padStart`: left-pads to length `n` with the
character `c` (no-op when already long enough). -/
def padStart (s : String) (n : Nat) (c : Char) : String :=
  String.mk (List.replicate (n - s.length) c ++ s.data)

/-- Lookup in the `namingConfigBySlotId` map (`new Map` keeps the last
entry for a duplicated key). -/
def lookupConfig (configs : List SlotNamingConfig) (slotId : String) :
    Option SlotNamingConfig :=
  configs.foldl (fun acc c => if c.slotId = slotId then some c else acc) none

/-- Sorting relation used for a slot's files: ascending `relativePath`. -/
def fileRelLe (a b : PlannedFile) : Prop := strLeP a.relativePath b.relativePath

instance : DecidableRel fileRelLe := fun _ _ => instDecidableEqBool _ _

instance : IsTotal PlannedFile fileRelLe :=
  ⟨fun a b => charListLe_total a.relativePath.data b.relativePath.data⟩

instance : IsTrans PlannedFile fileRelLe :=
  ⟨fun a b c hab hbc =>
    charListLe_trans a.relativePath.data b.relativePath.data c.relativePath.data hab hbc⟩

/-- Sorted copy of a slot's assigned files
(`[...summary.plannedFiles].sort((a, b) => a.relativePath.localeCompare(b.relativePath))`). -/
def sortedFilesOf (sm : SlotMappingSummary) : List PlannedFile :=
  List.insertionSort fileRelLe sm.plannedFiles

/-- Entries of one slot's rename plan: sequences `i+1, i+2, ...` assigned
in order over the already-sorted file list, as the indexed `for` loop of
`mappingPlan`. -/
def mkEntries (cfg : SlotNamingConfig) (sm : SlotMappingSummary) :
    Nat → List PlannedFile → List RenamePlanItem
  | _, [] => []
  | i, f :: fs =>
    { slotId := sm.slotId
      slotLabel := sm.slotLabel
      sourcePath := f.fullPath
      sourceFilename := f.name
      oldFilename := f.name
      oldRelativePath := f.relativePath
      plannedName := cfg.pfx ++ "_" ++ padStart (toString (i + 1)) cfg.pad '0'
      plannedSequence := i + 1
      plannedFilename := cfg.pfx ++ "_" ++ padStart (toString (i + 1)) cfg.pad '0' ++ f.extension
      sha256 := f.sha256
      sizeBytes := f.size } :: mkEntries cfg sm (i + 1) fs

/-- Model of the `renamePlan` loop of `mappingPlan`: for each summary in
order, look up its naming config (skipping the summary when none exists),
sort its files by relative path, and emit sequence-numbered entries. -/
def renamePlanFor (summaries : List SlotMappingSummary)
    (configs : List SlotNamingConfig) : List RenamePlanItem :=
  match summaries with
  | [] => []
  | sm :: rest =>
    (match lookupConfig configs sm.slotId with
     | none => []
     | some cfg => mkEntries cfg sm 0 (sortedFilesOf sm)) ++ renamePlanFor rest configs

/-- Character class of the validation regex
`[<>:"/\\|?*\x00-\x1f]` used for invalid filename detection. -/
def isInvalidFilenameChar (ch : Char) : Bool :=
  ch = '<' || ch = '>' || ch = ':' || ch = '"' || ch = '/' || ch = '\\' ||
    ch = '|' || ch = '?' || ch = '*' || decide (ch.toNat ≤ 0x1f)

/-- Invalid-name finding, as the elements of `validation.invalidNames`. -/
structure InvalidNameFinding where
  oldPath : String
  plannedFilename : String
  reason : String
deriving DecidableEq

/-- Findings contributed by a single rename plan item: the three
independent checks of the `invalidNames` loop. -/
def invalidNameFindingsOf (item : RenamePlanItem) : List InvalidNameFinding :=
  (if item.plannedName.trim = "" then
    [{ oldPath := item.oldRelativePath, plannedFilename := item.plannedFilename
       reason := "Planned base name is empty." }] else []) ++
  (if item.plannedFilename.data.any isInvalidFilenameChar then
    [{ oldPath := item.oldRelativePath, plannedFilename := item.plannedFilename
       reason := "Filename contains invalid characters." }] else []) ++
  (if item.plannedFilename.length > 255 then
    [{ oldPath := item.oldRelativePath, plannedFilename := item.plannedFilename
       reason := "Filename is longer than 255 characters." }] else [])

/-- Model of `validation.invalidNames`. -/
def computeInvalidNames (plan : List RenamePlanItem) : List InvalidNameFinding :=
  plan.foldl (fun acc item => acc ++ invalidNameFindingsOf item) []

/-- Appends a path under a key in the insertion-ordered
filename-to-old-paths map (`plannedFilenameMap`). -/
def addPathTo : List (String × List String) → String → String →
    List (String × List String)
  | [], key, path => [(key, [path])]
  | (k, ps) :: rest, key, path =>
    if k = key then (k, ps ++ [path]) :: rest else (k, ps) :: addPathTo rest key path

/-- The `plannedFilenameMap` of the collision check. -/
def plannedFilenameMapOf (plan : List RenamePlanItem) : List (String × List String) :=
  plan.foldl (fun m item => addPathTo m item.plannedFilename item.oldRelativePath) []

/-- Rename collision finding, as the elements of
`validation.renameCollisions`. -/
structure RenameCollision where
  plannedFilename : String
  oldPaths : List String
deriving DecidableEq

/-- Model of `validation.renameCollisions`: keys of the filename map with
more than one source path. -/
def computeRenameCollisions (plan : List RenamePlanItem) : List RenameCollision :=
  ((plannedFilenameMapOf plan).filter fun p => p.2.length > 1).map
    fun p => { plannedFilename := p.1, oldPaths := p.2 }

/-! ### Execution dry-run readiness (`handleRunExecutionDryRun`) -/

/-- Execution plan item, as `ExecutionPlanItem` of the renderer. -/
structure ExecutionPlanItem where
  sourcePath : String
  sourceFilename : String
  plannedName : String
  destinationPath : String
  slotId : String
  slotLabel : String
  sha256 : String
  sizeBytes : Nat
deriving DecidableEq

/-- Model of the `executionPlan` memo: the rename plan mapped to execution
items (note the source maps `plannedName := item.plannedFilename`). -/
def executionPlanOf (projectCode : String) (plan : List RenamePlanItem) :
    List ExecutionPlanItem :=
  plan.map fun item =>
    { sourcePath := item.sourcePath
      sourceFilename := item.sourceFilename
      plannedName := item.plannedFilename
      destinationPath :=
        "drive://" ++ projectCode ++ "/slot/" ++ item.slotId ++ "/" ++ item.plannedFilename
      slotId := item.slotId
      slotLabel := item.slotLabel
      sha256 := item.sha256
      sizeBytes := item.sizeBytes }

/-- Per-file execution error, as `ExecutionError`. -/
structure ExecutionError where
  slotId : String
  slotLabel : String
  sourcePath : String
  sourceFilename : String
  errorType : DryRunErrorType
  message : String
deriving DecidableEq

/-- Readiness verdict, as `ExecutionValidation`. -/
structure ExecutionValidation where
  allFilesReadable : Bool
  noCriticalErrors : Bool
  executionReady : Bool
  errors : List ExecutionError
deriving DecidableEq

/-- Lookup in the `itemBySourcePath` map (built by insertion over the
plan, so the last plan item with a given source path wins). -/
def lookupPlanItem (plan : List ExecutionPlanItem) (sourcePath : String) :
    Option ExecutionPlanItem :=
  plan.foldl (fun acc item => if item.sourcePath = sourcePath then some item else acc) none

/-- Error list of `handleRunExecutionDryRun`: dry-run results that are not
ok, carry an error type, and match a plan item by source path. -/
def executionErrorsOf (plan : List ExecutionPlanItem)
    (results : List DryRunFileResult) : List ExecutionError :=
  results.filterMap fun r =>
    if r.ok then none
    else
      match r.errorType with
      | none => none
      | some t =>
        match lookupPlanItem plan r.sourcePath with
        | none => none
        | some item =>
          some { slotId := item.slotId, slotLabel := item.slotLabel
                 sourcePath := item.sourcePath, sourceFilename := item.sourceFilename
                 errorType := t, message := r.message.getD "Dry-run validation error" }

/-- Model of `handleRunExecutionDryRun`: the empty-plan short circuit, then
the readiness verdict computed solely from the dry-run probe results. -/
def handleRunExecutionDryRun (plan : List ExecutionPlanItem)
    (results : List DryRunFileResult) : ExecutionValidation :=
  if plan.length = 0 then
    { allFilesReadable := false, noCriticalErrors := false, executionReady := false
      errors := [{ slotId := "unmapped", slotLabel := "Unmapped", sourcePath := ""
                   sourceFilename := "", errorType := DryRunErrorType.unreadable
                   message := "No execution items. Complete folder-to-slot mapping first." }] }
  else
    let errors := executionErrorsOf plan results
    { allFilesReadable := decide (errors.length = 0)
      noCriticalErrors := decide (errors.length = 0)
      executionReady := decide (errors.length = 0) && decide (errors.length = 0)
      errors := errors }

/-! ### Rename planner lemmas -/

theorem mkEntries_slotId (cfg : SlotNamingConfig) (sm : SlotMappingSummary) :
    ∀ (i : Nat) (fs : List PlannedFile) (e : RenamePlanItem),
      e ∈ mkEntries cfg sm i fs → e.slotId = sm.slotId := by
  intro i fs
  induction fs generalizing i with
  | nil => intro e he; simp [mkEntries] at he
  | cons f fs ih =>
    intro e he
    simp only [mkEntries, List.mem_cons] at he
    rcases he with he | he
    · subst he; rfl
    · exact ih (i + 1) e he

theorem mkEntries_oldRel (cfg : SlotNamingConfig) (sm : SlotMappingSummary) :
    ∀ (i : Nat) (fs : List PlannedFile),
      (mkEntries cfg sm i fs).map (fun e => e.oldRelativePath) =
        fs.map (fun f => f.relativePath) := by
  intro i fs
  induction fs generalizing i with
  | nil => simp [mkEntries]
  | cons f fs ih => simp [mkEntries, ih]

theorem mkEntries_seq (cfg : SlotNamingConfig) (sm : SlotMappingSummary) :
    ∀ (i : Nat) (fs : List PlannedFile),
      (mkEntries cfg sm i fs).map (fun e => e.plannedSequence) =
        List.range' (i + 1) fs.length := by
  intro i fs
  induction fs generalizing i with
  | nil => simp [mkEntries]
  | cons f fs ih => simp [mkEntries, ih, List.range', Nat.add_assoc]

theorem mkEntries_fields (cfg : SlotNamingConfig) (sm : SlotMappingSummary) :
    ∀ (i : Nat) (fs : List PlannedFile) (e : RenamePlanItem),
      e ∈ mkEntries cfg sm i fs →
      ∃ f ∈ fs, e.oldRelativePath = f.relativePath ∧ e.sourcePath = f.fullPath ∧
        e.sha256 = f.sha256 ∧ e.sizeBytes = f.size ∧
        e.plannedName = cfg.pfx ++ "_" ++ padStart (toString e.plannedSequence) cfg.pad '0' ∧
        e.plannedFilename = e.plannedName ++ f.extension := by
  intro i fs
  induction fs generalizing i with
  | nil => intro e he; simp [mkEntries] at he
  | cons f fs ih =>
    intro e he
    simp only [mkEntries, List.mem_cons] at he
    rcases he with he | he
    · subst he
      exact ⟨f, List.mem_cons_self f fs, rfl, rfl, rfl, rfl, rfl, rfl⟩
    · obtain ⟨g, hg, hrest⟩ := ih (i + 1) e he
      exact ⟨g, List.mem_cons_of_mem f hg, hrest⟩

theorem renamePlanFor_slotIds (configs : List SlotNamingConfig) :
    ∀ (summaries : List SlotMappingSummary) (e : RenamePlanItem),
      e ∈ renamePlanFor summaries configs →
        e.slotId ∈ summaries.map (fun x => x.slotId) := by
  intro summaries
  induction summaries with
  | nil => intro e he; simp [renamePlanFor] at he
  | cons sm rest ih =>
    intro e he
    simp only [renamePlanFor, List.mem_append] at he
    rcases he with he | he
    · cases hl : lookupConfig configs sm.slotId with
      | none => rw [hl] at he; simp at he
      | some c =>
        rw [hl] at he
        simp [mkEntries_slotId c sm 0 _ e he]
    · simp [ih e he]

theorem renamePlanFor_filter_eq (summaries : List SlotMappingSummary)
    (configs : List SlotNamingConfig) (s : SlotMappingSummary) (cfg : SlotNamingConfig)
    (hnd : (summaries.map (fun x => x.slotId)).Nodup) (hs : s ∈ summaries)
    (hcfg : lookupConfig configs s.slotId = some cfg) :
    (renamePlanFor summaries configs).filter (fun e => decide (e.slotId = s.slotId)) =
      mkEntries cfg s 0 (sortedFilesOf s) := by
  induction summaries with
  | nil => cases hs
  | cons sm rest ih =>
    simp only [renamePlanFor, List.filter_append]
    rcases List.mem_cons.mp hs with heq | hmem
    · subst heq
      rw [hcfg]
      have h1 : (mkEntries cfg s 0 (sortedFilesOf s)).filter
          (fun e => decide (e.slotId = s.slotId)) = mkEntries cfg s 0 (sortedFilesOf s) :=
        List.filter_eq_self.mpr fun e he => by
          simp [mkEntries_slotId cfg s 0 _ e he]
      have hnotin : s.slotId ∉ rest.map (fun x => x.slotId) :=
        (List.nodup_cons.mp hnd).1
      have h2 : (renamePlanFor rest configs).filter
          (fun e => decide (e.slotId = s.slotId)) = [] := by
        rw [List.filter_eq_nil_iff]
        intro e he
        have hmem2 := renamePlanFor_slotIds configs rest e he
        simp only [decide_eq_true_eq]
        intro hcontra
        exact hnotin (hcontra ▸ hmem2)
      rw [h1, h2, List.append_nil]
    · have hnotin : sm.slotId ∉ rest.map (fun x => x.slotId) :=
        (List.nodup_cons.mp hnd).1
      have hin : s.slotId ∈ rest.map (fun x => x.slotId) :=
        List.mem_map.mpr ⟨s, hmem, rfl⟩
      have hne : sm.slotId ≠ s.slotId := fun h => hnotin (h ▸ hin)
      have h1 : ((match lookupConfig configs sm.slotId with
          | none => []
          | some c => mkEntries c sm 0 (sortedFilesOf sm) : List RenamePlanItem)).filter
            (fun e => decide (e.slotId = s.slotId)) = [] := by
        cases hl : lookupConfig configs sm.slotId with
        | none => simp
        | some c =>
          rw [List.filter_eq_nil_iff]
          intro e he
          have := mkEntries_slotId c sm 0 _ e he
          simp only [decide_eq_true_eq, this]
          exact hne
      rw [h1]
      simpa using ih (List.nodup_cons.mp hnd).2 hmem

/-! ### Claim C7 -/

/-- C7: for every slot summary with a naming config (slot ids distinct, as
they are when summaries come from the keyed map), the rename plan's entries
for that slot list the slot's assigned files sorted by `relativePath`
ascending, carry sequence numbers 1..N in that order, and use the planned
filename `pfx ++ "_" ++ zero-padded sequence ++ original extension`; the
plan is a pure function of its inputs. -/
theorem c7_rename_plan_deterministic (summaries : List SlotMappingSummary)
    (configs : List SlotNamingConfig) (s : SlotMappingSummary) (cfg : SlotNamingConfig)
    (hnd : (summaries.map (fun x => x.slotId)).Nodup) (hs : s ∈ summaries)
    (hcfg : lookupConfig configs s.slotId = some cfg) :
    List.Sorted strLeP
      (((renamePlanFor summaries configs).filter
        (fun e => decide (e.slotId = s.slotId))).map (fun e => e.oldRelativePath)) ∧
    (((renamePlanFor summaries configs).filter
        (fun e => decide (e.slotId = s.slotId))).map (fun e => e.oldRelativePath)).Perm
      (s.plannedFiles.map (fun f => f.relativePath)) ∧
    ((renamePlanFor summaries configs).filter
        (fun e => decide (e.slotId = s.slotId))).map (fun e => e.plannedSequence) =
      List.range' 1 s.plannedFiles.length ∧
    (∀ e ∈ (renamePlanFor summaries configs).filter
        (fun e => decide (e.slotId = s.slotId)),
      ∃ f ∈ s.plannedFiles, e.oldRelativePath = f.relativePath ∧
        e.sourcePath = f.fullPath ∧ e.sha256 = f.sha256 ∧ e.sizeBytes = f.size ∧
        e.plannedName = cfg.pfx ++ "_" ++ padStart (toString e.plannedSequence) cfg.pad '0' ∧
        e.plannedFilename = e.plannedName ++ f.extension) ∧
    (∀ (summaries2 : List SlotMappingSummary) (configs2 : List SlotNamingConfig),
      summaries2 = summaries → configs2 = configs →
      renamePlanFor summaries2 configs2 = renamePlanFor summaries configs) := by
  have hfe := renamePlanFor_filter_eq summaries configs s cfg hnd hs hcfg
  have hperm : (sortedFilesOf s).Perm s.plannedFiles :=
    List.perm_insertionSort fileRelLe s.plannedFiles
  refine ⟨?_, ?_, ?_, ?_, ?_⟩
  · rw [hfe, mkEntries_oldRel]
    have hsorted : List.Sorted fileRelLe (sortedFilesOf s) :=
      List.sorted_insertionSort fileRelLe s.plannedFiles
    exact List.Pairwise.map (fun f : PlannedFile => f.relativePath) (fun a b hab => hab) hsorted
  · rw [hfe, mkEntries_oldRel]
    exact hperm.map fun f : PlannedFile => f.relativePath
  · rw [hfe, mkEntries_seq cfg s 0 (sortedFilesOf s), hperm.length_eq]
  · intro e he
    rw [hfe] at he
    obtain ⟨f, hf, hrest⟩ := mkEntries_fields cfg s 0 (sortedFilesOf s) e he
    exact ⟨f, hperm.mem_iff.mp hf, hrest⟩
  · intro s2 c2 h1 h2
    rw [h1, h2]

/-- File `a.jpg` of the specification's slot-HERO example. -/
def c7FileA : PlannedFile :=
  { name := "a.jpg", fullPath := "/media/shoot/hero/a.jpg", relativePath := "hero/a.jpg"
    parentRelativePath := "hero", size := 2, extension := ".jpg"
    fileType := DetectedFileType.image, sha256 := "sha-a" }

/-- File `b.jpg` of the specification's slot-HERO example. -/
def c7FileB : PlannedFile :=
  { name := "b.jpg", fullPath := "/media/shoot/hero/b.jpg", relativePath := "hero/b.jpg"
    parentRelativePath := "hero", size := 3, extension := ".jpg"
    fileType := DetectedFileType.image, sha256 := "sha-b" }

/-- Slot HERO with its two assigned files, deliberately listed out of
order. -/
def c7Slot : SlotMappingSummary :=
  { slotId := "slot-hero", slotLabel := "HERO", fileCount := 2, totalBytes := 5
    typeImage := 2, typeVideo := 0, typeOther := 0
    plannedFiles := [c7FileB, c7FileA] }

/-- Naming config of slot HERO: prefix `PRJ_HERO`, padding 4. -/
def c7Cfg : SlotNamingConfig :=
  { slotId := "slot-hero", slotLabel := "HERO", pfx := "PRJ_HERO", pad := 4 }

/-- C7 witness: the theorem applied to the HERO example slot. -/
theorem c7_rename_plan_deterministic_witness :
    ((renamePlanFor [c7Slot] [c7Cfg]).filter
        (fun e => decide (e.slotId = c7Slot.slotId))).map (fun e => e.plannedSequence) =
      List.range' 1 c7Slot.plannedFiles.length ∧
    List.Sorted strLeP (((renamePlanFor [c7Slot] [c7Cfg]).filter
        (fun e => decide (e.slotId = c7Slot.slotId))).map (fun e => e.oldRelativePath)) := by
  have h := c7_rename_plan_deterministic [c7Slot] [c7Cfg] c7Slot c7Cfg
    (by decide) (List.mem_singleton.mpr rfl) rfl
  exact ⟨h.2.2.1, h.1⟩

/-! ### Claim C4 -/

theorem executionErrorsOf_eq_nil_iff (plan : List ExecutionPlanItem)
    (results : List DryRunFileResult) :
    executionErrorsOf plan results = [] ↔
      ∀ r ∈ results, r.ok = true ∨ r.errorType = none ∨
        lookupPlanItem plan r.sourcePath = none := by
  rw [executionErrorsOf, List.filterMap_eq_nil_iff]
  constructor
  · intro h r hr
    have hf := h r hr
    by_cases hok : r.ok
    · exact Or.inl hok
    · cases het : r.errorType with
      | none => exact Or.inr (Or.inl rfl)
      | some t =>
        cases hlk : lookupPlanItem plan r.sourcePath with
        | none => exact Or.inr (Or.inr rfl)
        | some item => simp [hok, het, hlk] at hf
  · intro h r hr
    rcases h r hr with hok | het | hlk
    · simp [hok]
    · cases hok : r.ok <;> simp [hok, het]
    · cases hok : r.ok <;> cases het : r.errorType <;> simp [hok, het, hlk]

/-- C4 (amended): execution readiness is computed solely from the dry-run
probe results — `executionReady` is true exactly when the execution plan is
nonempty and no probe result that matches a plan item by source path
reports an error.  Rename collisions, invalid planned names, empty-slot
findings and duplicate-content findings are not inputs of this computation
and therefore never block (nor unblock) readiness. -/
theorem c4_execution_ready_from_dry_run_only (plan : List ExecutionPlanItem)
    (results : List DryRunFileResult) :
    (handleRunExecutionDryRun plan results).executionReady = true ↔
      (plan ≠ [] ∧ ∀ r ∈ results, r.ok = true ∨ r.errorType = none ∨
        lookupPlanItem plan r.sourcePath = none) := by
  by_cases hp : plan.length = 0
  · have hpl : plan = [] := List.length_eq_zero.mp hp
    simp [handleRunExecutionDryRun, hp, hpl]
  · have hpl : plan ≠ [] := fun h => hp (by simp [h])
    simp [handleRunExecutionDryRun, hp, hpl, List.length_eq_zero,
      executionErrorsOf_eq_nil_iff]

/-- File assigned to slot Alpha in the C4 scenario. -/
def c4FileA : PlannedFile :=
  { name := "a.jpg", fullPath := "/media/shoot/x/a.jpg", relativePath := "x/a.jpg"
    parentRelativePath := "x", size := 2, extension := ".jpg"
    fileType := DetectedFileType.image, sha256 := "sha-ca" }

/-- File assigned to slot Beta in the C4 scenario. -/
def c4FileB : PlannedFile :=
  { name := "b.jpg", fullPath := "/media/shoot/y/b.jpg", relativePath := "y/b.jpg"
    parentRelativePath := "y", size := 3, extension := ".jpg"
    fileType := DetectedFileType.image, sha256 := "sha-cb" }

/-- Slot Alpha with one file. -/
def c4SlotA : SlotMappingSummary :=
  { slotId := "slot-a", slotLabel := "Alpha", fileCount := 1, totalBytes := 2
    typeImage := 1, typeVideo := 0, typeOther := 0, plannedFiles := [c4FileA] }

/-- Slot Beta with one file. -/
def c4SlotB : SlotMappingSummary :=
  { slotId := "slot-b", slotLabel := "Beta", fileCount := 1, totalBytes := 3
    typeImage := 1, typeVideo := 0, typeOther := 0, plannedFiles := [c4FileB] }

/-- Naming config of slot Alpha: same prefix and padding as Beta, forcing
a cross-slot filename collision. -/
def c4CfgA : SlotNamingConfig :=
  { slotId := "slot-a", slotLabel := "Alpha", pfx := "PRJ", pad := 1 }

/-- Naming config of slot Beta. -/
def c4CfgB : SlotNamingConfig :=
  { slotId := "slot-b", slotLabel := "Beta", pfx := "PRJ", pad := 1 }

/-- Rename plan of the C4 scenario: both files map to `PRJ_1.jpg`. -/
def c4Plan : List RenamePlanItem := renamePlanFor [c4SlotA, c4SlotB] [c4CfgA, c4CfgB]

/-- Execution plan derived from the colliding rename plan. -/
def c4ExecPlan : List ExecutionPlanItem := executionPlanOf "PRJ" c4Plan

/-- Dry-run results of the C4 scenario: every probe passes (each source
stats as a regular file of the expected size and opens). -/
def c4Results : List DryRunFileResult :=
  dryRunStreamOpen (c4ExecPlan.map fun item =>
    ({ sourcePath := item.sourcePath, expectedSizeBytes := item.sizeBytes },
     { statRes := Except.ok { isFile := true, size := item.sizeBytes }
       openRes := Except.ok () }))

/-- C4 counterexample: the rename plan has a filename collision
(`PRJ_1.jpg` is planned for two different source files), yet the computed
`executionReady` flag is true because the dry-run probes all pass —
collisions and invalid names do not block readiness. -/
theorem c4_counterexample :
    computeRenameCollisions c4Plan ≠ [] ∧
    (handleRunExecutionDryRun c4ExecPlan c4Results).executionReady = true := by
  constructor
  · decide
  · rfl

/-- Failing dry-run result for the C4 witness. -/
def c4wResult : DryRunFileResult :=
  { sourcePath := "/media/shoot/x/a.jpg", ok := false
    errorType := some DryRunErrorType.missing
    message := some "ENOENT: no such file or directory, stat"
    expectedSizeBytes := 2, currentSizeBytes := none }

/-- Execution plan of the C4 witness (single slot, no collision). -/
def c4wPlan : List ExecutionPlanItem :=
  executionPlanOf "PRJ" (renamePlanFor [c4SlotA] [c4CfgA])

/-- C4 witness: the amended theorem applied to a one-item plan whose probe
failed — readiness is false. -/
theorem c4_execution_ready_from_dry_run_only_witness :
    (handleRunExecutionDryRun c4wPlan [c4wResult]).executionReady = false := by
  have h := c4_execution_ready_from_dry_run_only c4wPlan [c4wResult]
  refine Bool.eq_false_iff.mpr fun hs => ?_
  rcases (h.mp hs).2 c4wResult (List.mem_singleton.mpr rfl) with hok | het | hlk
  · exact absurd hok (by decide)
  · exact absurd het (by decide)
  · exact absurd hlk (by decide)

/-! ### Streaming executor (`execute-filesystem-stream-plan` handler)

The remote ledger (`project_uploads`) is modelled as an explicit list of
entries, the per-slot persisted counters (`project_slots.current_sequence`)
as a function from slot id to the stored value (a missing or non-numeric
value reads as 0, as in `updateSlotCurrentSequence`), and the per-item I/O
of the loop by an environment giving, for the item at each position: an
optional error thrown by the dedup query, the outcome of
`uploadStream` + `stat` on the destination (the destination size, or the
error thrown), and an optional error thrown by the ledger insert. -/

/-- Status of one processed item. -/
inductive UploadStatus where
  | success
  | failed
  | skipped
deriving DecidableEq

/-- Input item of the executor, as `ExecutionUploadItem`. -/
structure ExecutionUploadItem where
  projectId : String
  slotId : String
  sourcePath : String
  sourceFilename : String
  destinationFilename : String
  destinationPath : String
  plannedSequence : Nat
  sha256 : String
  sizeBytes : Nat
  projectCode : String
  slotCode : String
  assetKind : String
  mimeType : String
deriving DecidableEq

/-- Per-item result record, as `UploadResultItem`. -/
structure UploadResultItem where
  projectId : String
  slotId : String
  sourcePath : String
  destinationFilename : String
  destinationPath : String
  status : UploadStatus
  skippedReason : Option String
  error : Option String
deriving DecidableEq

/-- Per-item result record, as `ExecutionResult`. -/
structure ExecutionResult where
  projectId : String
  slotId : String
  sourcePath : String
  finalPath : String
  plannedFilename : String
  sha256 : String
  sizeBytes : Nat
  plannedSequence : Nat
  status : UploadStatus
  error : Option String
deriving DecidableEq

/-- Completed-upload row of the remote ledger, with the fields
`insertProjectUploadSuccess` writes (`upload_source`, `upload_stage` and
the timestamp are fixed values and elided). -/
structure LedgerEntry where
  projectId : String
  slotId : String
  filePath : String
  originalFilename : String
  finalFilename : String
  sha256 : String
  fileSize : Nat
  sequenceNumber : Nat
  isSourceFile : Bool
deriving DecidableEq

/-- Model of `projectUploadExistsBySha256`: a completed source-file row
with this project id and sha256 exists. -/
def projectUploadExistsBySha256 (ledger : List LedgerEntry)
    (projectId sha256 : String) : Bool :=
  ledger.any fun e =>
    decide (e.projectId = projectId) && decide (e.sha256 = sha256) && e.isSourceFile

/-- Model of `insertProjectUploadSuccess`: appends the completed row. -/
def insertProjectUploadSuccess (ledger : List LedgerEntry)
    (item : ExecutionUploadItem) : List LedgerEntry :=
  ledger ++
    [{ projectId := item.projectId, slotId := item.slotId
       filePath := item.destinationPath
       originalFilename := item.sourceFilename
       finalFilename := item.destinationFilename
       sha256 := item.sha256, fileSize := item.sizeBytes
       sequenceNumber := item.plannedSequence, isSourceFile := true }]

/-- Persisted per-slot current-sequence counters. -/
abbrev SlotStore := String → Nat

/-- Model of `updateSlotCurrentSequence`: read the stored value, write
`max(existing, nextSequence)`; returns the new store and the written
value. -/
def updateSlotCurrentSequence (store : SlotStore) (slotId : String)
    (nextSequence : Nat) : SlotStore × Nat :=
  let targetSequence := max (store slotId) nextSequence
  (fun s => if s = slotId then targetSequence else store s, targetSequence)

/-- Destination path computed by `FilesystemStreamingAdapter.uploadStream`
(drive root / projectCode / source / assetKind / slotCode / filename). -/
def streamDestinationPath (driveRootPath : String) (item : ExecutionUploadItem) : String :=
  driveRootPath ++ "/" ++ item.projectCode ++ "/source/" ++ item.assetKind ++ "/" ++
    item.slotCode ++ "/" ++ item.destinationFilename

/-- Size-mismatch integrity error message of the handler. -/
def sizeMismatchMsg (expected got : Nat) : String :=
  "Size mismatch after stream write. Expected " ++ toString expected ++
    " bytes, got " ++ toString got ++ " bytes."

/-- Per-item I/O outcomes of one executor run, by item position. -/
structure ExecEnv where
  driveRootPath : String
  dedupErr : Nat → Option String
  copy : Nat → Except String Nat
  insertErr : Nat → Option String

/-- Mutable bookkeeping of the handler body. -/
structure ExecState where
  ledger : List LedgerEntry
  results : List UploadResultItem
  executionResults : List ExecutionResult
  uploadedCount : Nat
  skippedCount : Nat
  failedCount : Nat
  slotSucceeded : String → Nat
  slotFailed : String → Bool
  slotMaxInserted : String → Nat

/-- Bumps an occurrence-count map at one key
(`map.set(k, (map.get(k) ?? 0) + 1)`). -/
def bumpFun (f : String → Nat) (s : String) : String → Nat :=
  fun x => if x = s then f s + 1 else f x

/-- Adds one item to the insertion-ordered `slotTotals` map. -/
def bumpTotal : List (String × Nat) → String → List (String × Nat)
  | [], s => [(s, 1)]
  | (k, n) :: rest, s =>
    if k = s then (k, n + 1) :: rest else (k, n) :: bumpTotal rest s

/-- Accumulating worker of `slotTotals`. -/
def slotTotalsGo (acc : List (String × Nat)) :
    List ExecutionUploadItem → List (String × Nat)
  | [] => acc
  | item :: rest => slotTotalsGo (bumpTotal acc item.slotId) rest

/-- The `slotTotals` map: per-slot item counts of the batch, keys in
first-occurrence order. -/
def slotTotals (items : List ExecutionUploadItem) : List (String × Nat) :=
  slotTotalsGo [] items

/-- Model of `finalizeSlotSequences`: for each slot of the batch, in map
order, issue a `max`-update of its persisted counter unless the slot has a
failed item, has fewer succeeded items than its total, or has a falsy
(zero or absent) batch-maximum inserted sequence.  Returns the final store
and the list of issued updates `(slotId, written value)`. -/
def finalizeSlotSequences (st : ExecState) :
    List (String × Nat) → SlotStore → SlotStore × List (String × Nat)
  | [], store => (store, [])
  | (slotId, total) :: rest, store =>
    if st.slotFailed slotId then finalizeSlotSequences st rest store
    else if st.slotSucceeded slotId ≠ total then finalizeSlotSequences st rest store
    else if st.slotMaxInserted slotId = 0 then finalizeSlotSequences st rest store
    else
      let upd := updateSlotCurrentSequence store slotId (st.slotMaxInserted slotId)
      let fin := finalizeSlotSequences st rest upd.1
      (fin.1, (slotId, upd.2) :: fin.2)

/-- Result pushed for a dedup-skipped item. -/
def skippedResultOf (item : ExecutionUploadItem) : UploadResultItem :=
  { projectId := item.projectId, slotId := item.slotId, sourcePath := item.sourcePath
    destinationFilename := item.destinationFilename
    destinationPath := item.destinationPath, status := UploadStatus.skipped
    skippedReason := some "sha256 already exists for this project", error := none }

/-- Execution result pushed for a dedup-skipped item. -/
def skippedExecOf (item : ExecutionUploadItem) : ExecutionResult :=
  { projectId := item.projectId, slotId := item.slotId, sourcePath := item.sourcePath
    finalPath := item.destinationPath, plannedFilename := item.destinationFilename
    sha256 := item.sha256, sizeBytes := item.sizeBytes
    plannedSequence := item.plannedSequence, status := UploadStatus.skipped
    error := none }

/-- Result pushed for a successfully streamed item (note the destination
path comes from the adapter, not from the request item). -/
def successResultOf (driveRootPath : String) (item : ExecutionUploadItem) :
    UploadResultItem :=
  { projectId := item.projectId, slotId := item.slotId, sourcePath := item.sourcePath
    destinationFilename := item.destinationFilename
    destinationPath := streamDestinationPath driveRootPath item
    status := UploadStatus.success, skippedReason := none, error := none }

/-- Execution result pushed for a successfully streamed item. -/
def successExecOf (item : ExecutionUploadItem) : ExecutionResult :=
  { projectId := item.projectId, slotId := item.slotId, sourcePath := item.sourcePath
    finalPath := item.destinationPath, plannedFilename := item.destinationFilename
    sha256 := item.sha256, sizeBytes := item.sizeBytes
    plannedSequence := item.plannedSequence, status := UploadStatus.success
    error := none }

/-- Result pushed for the failing item. -/
def failedResultOf (item : ExecutionUploadItem) (msg : String) : UploadResultItem :=
  { projectId := item.projectId, slotId := item.slotId, sourcePath := item.sourcePath
    destinationFilename := item.destinationFilename
    destinationPath := item.destinationPath, status := UploadStatus.failed
    skippedReason := none, error := some msg }

/-- Execution result pushed for the failing item. -/
def failedExecOf (item : ExecutionUploadItem) (msg : String) : ExecutionResult :=
  { projectId := item.projectId, slotId := item.slotId, sourcePath := item.sourcePath
    finalPath := item.destinationPath, plannedFilename := item.destinationFilename
    sha256 := item.sha256, sizeBytes := item.sizeBytes
    plannedSequence := item.plannedSequence, status := UploadStatus.failed
    error := some msg }

/-- State update of the skip branch. -/
def applySkip (st : ExecState) (item : ExecutionUploadItem) : ExecState :=
  { st with
    skippedCount := st.skippedCount + 1
    slotSucceeded := bumpFun st.slotSucceeded item.slotId
    results := st.results ++ [skippedResultOf item]
    executionResults := st.executionResults ++ [skippedExecOf item] }

/-- State update of the verified-success branch. -/
def applySuccess (driveRootPath : String) (st : ExecState)
    (item : ExecutionUploadItem) : ExecState :=
  { st with
    ledger := insertProjectUploadSuccess st.ledger item
    uploadedCount := st.uploadedCount + 1
    slotSucceeded := bumpFun st.slotSucceeded item.slotId
    slotMaxInserted := fun x =>
      if x = item.slotId then max (st.slotMaxInserted item.slotId) item.plannedSequence
      else st.slotMaxInserted x
    results := st.results ++ [successResultOf driveRootPath item]
    executionResults := st.executionResults ++ [successExecOf item] }

/-- State update of the catch block. -/
def applyFail (st : ExecState) (item : ExecutionUploadItem) (msg : String) : ExecState :=
  { st with
    failedCount := st.failedCount + 1
    slotFailed := fun x => if x = item.slotId then true else st.slotFailed x
    results := st.results ++ [failedResultOf item msg]
    executionResults := st.executionResults ++ [failedExecOf item msg] }

/-- Verdict of processing one item against the current ledger: skip on a
positive dedup check, fail on the first thrown error (dedup query error,
stream/stat error, size mismatch, ledger insert error), succeed
otherwise. -/
inductive StepVerdict where
  | skip
  | succeed
  | fail (msg : String)

/-- Decision tree of one iteration of the executor loop. -/
def stepVerdict (env : ExecEnv) (idx : Nat) (ledger : List LedgerEntry)
    (item : ExecutionUploadItem) : StepVerdict :=
  match env.dedupErr idx with
  | some e => StepVerdict.fail e
  | none =>
    if projectUploadExistsBySha256 ledger item.projectId item.sha256 then
      StepVerdict.skip
    else
      match env.copy idx with
      | Except.error e => StepVerdict.fail e
      | Except.ok destSize =>
        if destSize ≠ item.sizeBytes then
          StepVerdict.fail (sizeMismatchMsg item.sizeBytes destSize)
        else
          match env.insertErr idx with
          | some e => StepVerdict.fail e
          | none => StepVerdict.succeed

/-- Returned result of the handler, as `ExecuteUploadResult` (both union
variants flattened; `failedItem`/`error` are `none` on success). -/
structure ExecOutput where
  success : Bool
  uploadedCount : Nat
  skippedCount : Nat
  failedCount : Nat
  results : List UploadResultItem
  executionResults : List ExecutionResult
  failedItem : Option ExecutionUploadItem
  error : Option String
deriving DecidableEq

/-- Full observable outcome of a run: the returned result, the final
remote ledger, the final slot counters with the issued updates, and the
final internal bookkeeping state (exposed for verification). -/
structure ExecFinal where
  output : ExecOutput
  ledger : List LedgerEntry
  slotStore : SlotStore
  slotUpdates : List (String × Nat)
  finalState : ExecState

/-- Success result assembled after the loop completes. -/
def mkOkOutput (st : ExecState) : ExecOutput :=
  { success := true, uploadedCount := st.uploadedCount
    skippedCount := st.skippedCount, failedCount := st.failedCount
    results := st.results, executionResults := st.executionResults
    failedItem := none, error := none }

/-- Failure result assembled in the catch block. -/
def mkFailOutput (st : ExecState) (item : ExecutionUploadItem) (msg : String) :
    ExecOutput :=
  { success := false, uploadedCount := st.uploadedCount
    skippedCount := st.skippedCount, failedCount := st.failedCount
    results := st.results, executionResults := st.executionResults
    failedItem := some item, error := some msg }

/-- The `for` loop of the handler: strictly sequential, fail-fast, with
`finalizeSlotSequences` run both on the failure path and after
completion. -/
def execLoop (env : ExecEnv) (totals : List (String × Nat)) (store : SlotStore) :
    List ExecutionUploadItem → Nat → ExecState → ExecFinal
  | [], _, st =>
    let fin := finalizeSlotSequences st totals store
    { output := mkOkOutput st, ledger := st.ledger
      slotStore := fin.1, slotUpdates := fin.2, finalState := st }
  | item :: rest, idx, st =>
    match stepVerdict env idx st.ledger item with
    | StepVerdict.skip => execLoop env totals store rest (idx + 1) (applySkip st item)
    | StepVerdict.succeed =>
      execLoop env totals store rest (idx + 1) (applySuccess env.driveRootPath st item)
    | StepVerdict.fail msg =>
      let st' := applyFail st item msg
      let fin := finalizeSlotSequences st' totals store
      { output := mkFailOutput st' item msg, ledger := st'.ledger
        slotStore := fin.1, slotUpdates := fin.2, finalState := st' }

/-- Initial bookkeeping state of one handler invocation. -/
def execInitState (ledger : List LedgerEntry) : ExecState :=
  { ledger := ledger, results := [], executionResults := []
    uploadedCount := 0, skippedCount := 0, failedCount := 0
    slotSucceeded := fun _ => 0, slotFailed := fun _ => false
    slotMaxInserted := fun _ => 0 }

/-- Model of the `execute-filesystem-stream-plan` handler. -/
def executePlan (env : ExecEnv) (items : List ExecutionUploadItem)
    (ledger : List LedgerEntry) (store : SlotStore) : ExecFinal :=
  execLoop env (slotTotals items) store items 0 (execInitState ledger)

/-- Number of results with a given status. -/
def countStatus (s : UploadStatus) (l : List UploadResultItem) : Nat :=
  (l.filter fun r => decide (r.status = s)).length

theorem countStatus_cons (s : UploadStatus) (r : UploadResultItem)
    (l : List UploadResultItem) :
    countStatus s (r :: l) = (if r.status = s then 1 else 0) + countStatus s l := by
  simp only [countStatus, List.filter_cons]
  by_cases h : r.status = s
  · simp [h]; omega
  · simp [h]

theorem execLoop_trace (env : ExecEnv) (totals : List (String × Nat)) (store : SlotStore) :
    ∀ (items : List ExecutionUploadItem) (idx : Nat) (st : ExecState),
      ∃ (n : Nat) (newR : List UploadResultItem) (newE : List ExecutionResult),
        n ≤ items.length ∧ newR.length = n ∧ newE.length = n ∧
        (execLoop env totals store items idx st).output.results = st.results ++ newR ∧
        (execLoop env totals store items idx st).output.executionResults =
          st.executionResults ++ newE ∧
        newR.map (fun r => r.sourcePath) = (items.take n).map (fun i => i.sourcePath) ∧
        newE.map (fun r => r.sourcePath) = (items.take n).map (fun i => i.sourcePath) ∧
        newR.map (fun r => r.status) = newE.map (fun r => r.status) ∧
        (execLoop env totals store items idx st).output.uploadedCount =
          st.uploadedCount + countStatus UploadStatus.success newR ∧
        (execLoop env totals store items idx st).output.skippedCount =
          st.skippedCount + countStatus UploadStatus.skipped newR ∧
        (execLoop env totals store items idx st).output.failedCount =
          st.failedCount + countStatus UploadStatus.failed newR ∧
        ((execLoop env totals store items idx st).output.success = true →
          n = items.length ∧ countStatus UploadStatus.failed newR = 0 ∧
          (execLoop env totals store items idx st).output.failedItem = none ∧
          (execLoop env totals store items idx st).output.error = none) ∧
        ((execLoop env totals store items idx st).output.success = false →
          countStatus UploadStatus.failed newR = 1 ∧ 1 ≤ n ∧
          (∃ r, newR.getLast? = some r ∧ r.status = UploadStatus.failed) ∧
          (∀ r ∈ newR.dropLast, r.status ≠ UploadStatus.failed) ∧
          (execLoop env totals store items idx st).output.failedItem =
            items.get? (n - 1) ∧
          (execLoop env totals store items idx st).output.error ≠ none) := by
  intro items
  induction items with
  | nil =>
    intro idx st
    refine ⟨0, [], [], ?_⟩
    simp [execLoop, mkOkOutput, countStatus]
  | cons item rest ih =>
    intro idx st
    cases hv : stepVerdict env idx st.ledger item with
    | skip =>
      obtain ⟨n, newR, newE, h1, h2, h3, h4, h5, h6, h7, h8, h9, h10, h11, h12, h13⟩ :=
        ih (idx + 1) (applySkip st item)
      have hloop : execLoop env totals store (item :: rest) idx st =
          execLoop env totals store rest (idx + 1) (applySkip st item) := by
        simp [execLoop, hv]
      rw [hloop]
      refine ⟨n + 1, skippedResultOf item :: newR, skippedExecOf item :: newE,
        ?_, ?_, ?_, ?_, ?_, ?_, ?_, ?_, ?_, ?_, ?_, ?_, ?_⟩
      · simp; omega
      · simp [h2]
      · simp [h3]
      · rw [h4]; simp [applySkip]
      · rw [h5]; simp [applySkip]
      · simp [skippedResultOf, h6]
      · simp [skippedExecOf, h7]
      · simp [skippedResultOf, skippedExecOf, h8]
      · rw [h9, countStatus_cons]; simp [applySkip, skippedResultOf]
      · rw [h10, countStatus_cons]; simp [applySkip, skippedResultOf]; omega
      · rw [h11, countStatus_cons]; simp [applySkip, skippedResultOf]
      · intro hs
        obtain ⟨e1, e2, e3, e4⟩ := h12 hs
        refine ⟨by simp [e1], ?_, e3, e4⟩
        rw [countStatus_cons]; simp [skippedResultOf, e2]
      · intro hs
        obtain ⟨e1, e2, e3, e4, e5, e6⟩ := h13 hs
        have hne : newR ≠ [] := by
          intro hc
          rw [hc] at h2
          simp at h2
          omega
        obtain ⟨r0, rs, rfl⟩ := List.exists_cons_of_ne_nil hne
        refine ⟨?_, by omega, ?_, ?_, ?_, e6⟩
        · rw [countStatus_cons]; simp [skippedResultOf, e1]
        · simpa using e3
        · intro r hr
          simp only [List.dropLast, List.mem_cons] at hr
          rcases hr with hr | hr
          · subst hr; simp [skippedResultOf]
          · exact e4 r (by simpa using hr)
        · obtain ⟨m, rfl⟩ : ∃ m, n = m + 1 := ⟨n - 1, by omega⟩
          simpa using e5
    | succeed =>
      obtain ⟨n, newR, newE, h1, h2, h3, h4, h5, h6, h7, h8, h9, h10, h11, h12, h13⟩ :=
        ih (idx + 1) (applySuccess env.driveRootPath st item)
      have hloop : execLoop env totals store (item :: rest) idx st =
          execLoop env totals store rest (idx + 1) (applySuccess env.driveRootPath st item) := by
        simp [execLoop, hv]
      rw [hloop]
      refine ⟨n + 1, successResultOf env.driveRootPath item :: newR,
        successExecOf item :: newE, ?_, ?_, ?_, ?_, ?_, ?_, ?_, ?_, ?_, ?_, ?_, ?_, ?_⟩
      · simp; omega
      · simp [h2]
      · simp [h3]
      · rw [h4]; simp [applySuccess]
      · rw [h5]; simp [applySuccess]
      · simp [successResultOf, h6]
      · simp [successExecOf, h7]
      · simp [successResultOf, successExecOf, h8]
      · rw [h9, countStatus_cons]; simp [applySuccess, successResultOf]; omega
      · rw [h10, countStatus_cons]; simp [applySuccess, successResultOf]
      · rw [h11, countStatus_cons]; simp [applySuccess, successResultOf]
      · intro hs
        obtain ⟨e1, e2, e3, e4⟩ := h12 hs
        refine ⟨by simp [e1], ?_, e3, e4⟩
        rw [countStatus_cons]; simp [successResultOf, e2]
      · intro hs
        obtain ⟨e1, e2, e3, e4, e5, e6⟩ := h13 hs
        have hne : newR ≠ [] := by
          intro hc
          rw [hc] at h2
          simp at h2
          omega
        obtain ⟨r0, rs, rfl⟩ := List.exists_cons_of_ne_nil hne
        refine ⟨?_, by omega, ?_, ?_, ?_, e6⟩
        · rw [countStatus_cons]; simp [successResultOf, e1]
        · simpa using e3
        · intro r hr
          simp only [List.dropLast, List.mem_cons] at hr
          rcases hr with hr | hr
          · subst hr; simp [successResultOf]
          · exact e4 r (by simpa using hr)
        · obtain ⟨m, rfl⟩ : ∃ m, n = m + 1 := ⟨n - 1, by omega⟩
          simpa using e5
    | fail msg =>
      have hloop : execLoop env totals store (item :: rest) idx st =
          { output := mkFailOutput (applyFail st item msg) item msg
            ledger := (applyFail st item msg).ledger
            slotStore := (finalizeSlotSequences (applyFail st item msg) totals store).1
            slotUpdates := (finalizeSlotSequences (applyFail st item msg) totals store).2
            finalState := applyFail st item msg } := by
        simp [execLoop, hv]
      rw [hloop]
      refine ⟨1, [failedResultOf item msg], [failedExecOf item msg],
        ?_, ?_, ?_, ?_, ?_, ?_, ?_, ?_, ?_, ?_, ?_, ?_, ?_⟩
      · simp
      · simp
      · simp
      · simp [mkFailOutput, applyFail]
      · simp [mkFailOutput, applyFail]
      · simp [failedResultOf]
      · simp [failedExecOf]
      · simp [failedResultOf, failedExecOf]
      · simp [mkFailOutput, applyFail, countStatus, failedResultOf]
      · simp [mkFailOutput, applyFail, countStatus, failedResultOf]
      · simp [mkFailOutput, applyFail, countStatus, failedResultOf]
      · intro hs
        simp [mkFailOutput] at hs
      · intro hs
        refine ⟨by simp [countStatus, failedResultOf], le_refl 1, ?_, ?_, ?_, ?_⟩
        · exact ⟨failedResultOf item msg, rfl, rfl⟩
        · intro r hr; simp [List.dropLast] at hr
        · simp [mkFailOutput]
        · simp [mkFailOutput]

/-! ### Slot bookkeeping invariants -/

/-- Number of the batch's items assigned to a slot. -/
def countSlotItems (s : String) (items : List ExecutionUploadItem) : Nat :=
  (items.filter fun i => decide (i.slotId = s)).length

/-- Number of recorded results of a slot that did not fail (successes and
dedup skips). -/
def countSlotNonFailed (s : String) (l : List ExecutionResult) : Nat :=
  (l.filter fun e => decide (e.slotId = s) && !decide (e.status = UploadStatus.failed)).length

/-- Whether a slot has a recorded failed result. -/
def hasFailedInSlot (s : String) (l : List ExecutionResult) : Bool :=
  l.any fun e => decide (e.slotId = s) && decide (e.status = UploadStatus.failed)

/-- Maximum inserted (successfully uploaded) sequence recorded for a slot,
0 when none. -/
def maxInsertedSeq (s : String) (l : List ExecutionResult) : Nat :=
  l.foldl
    (fun m e =>
      if e.slotId = s ∧ e.status = UploadStatus.success then max m e.plannedSequence else m)
    0

/-- The handler's mutable slot maps agree with the recorded execution
results. -/
def StInv (st : ExecState) : Prop :=
  (∀ s, st.slotSucceeded s = countSlotNonFailed s st.executionResults) ∧
  (∀ s, st.slotFailed s = hasFailedInSlot s st.executionResults) ∧
  (∀ s, st.slotMaxInserted s = maxInsertedSeq s st.executionResults)

theorem countSlotNonFailed_append_one (s : String) (l : List ExecutionResult)
    (e : ExecutionResult) :
    countSlotNonFailed s (l ++ [e]) =
      countSlotNonFailed s l +
        (if e.slotId = s ∧ e.status ≠ UploadStatus.failed then 1 else 0) := by
  simp only [countSlotNonFailed, List.filter_append, List.length_append]
  by_cases h1 : e.slotId = s
  · by_cases h2 : e.status = UploadStatus.failed
    · simp [h1, h2]
    · simp [h1, h2]
  · simp [h1]

theorem hasFailedInSlot_append_one (s : String) (l : List ExecutionResult)
    (e : ExecutionResult) :
    hasFailedInSlot s (l ++ [e]) =
      (hasFailedInSlot s l ||
        (decide (e.slotId = s) && decide (e.status = UploadStatus.failed))) := by
  simp [hasFailedInSlot, List.any_append]

theorem maxInsertedSeq_append_one (s : String) (l : List ExecutionResult)
    (e : ExecutionResult) :
    maxInsertedSeq s (l ++ [e]) =
      if e.slotId = s ∧ e.status = UploadStatus.success then
        max (maxInsertedSeq s l) e.plannedSequence
      else maxInsertedSeq s l := by
  simp [maxInsertedSeq, List.foldl_append]

theorem stInv_applySkip {st : ExecState} (h : StInv st) (item : ExecutionUploadItem) :
    StInv (applySkip st item) := by
  obtain ⟨h1, h2, h3⟩ := h
  refine ⟨?_, ?_, ?_⟩
  · intro s
    simp only [applySkip, countSlotNonFailed_append_one, bumpFun]
    by_cases hs : s = item.slotId
    · subst hs
      simp [skippedExecOf, h1]
    · have hs2 : ¬ item.slotId = s := fun hh => hs hh.symm
      simp [skippedExecOf, hs, hs2, h1]
  · intro s
    simp only [applySkip, hasFailedInSlot_append_one]
    have hne : decide ((skippedExecOf item).status = UploadStatus.failed) = false := by
      simp [skippedExecOf]
    simp [hne, h2]
  · intro s
    simp only [applySkip, maxInsertedSeq_append_one]
    have hne : ¬ ((skippedExecOf item).slotId = s ∧
        (skippedExecOf item).status = UploadStatus.success) := by
      simp [skippedExecOf]
    simp [hne, h3]

theorem stInv_applySuccess {st : ExecState} (h : StInv st) (driveRootPath : String)
    (item : ExecutionUploadItem) : StInv (applySuccess driveRootPath st item) := by
  obtain ⟨h1, h2, h3⟩ := h
  refine ⟨?_, ?_, ?_⟩
  · intro s
    simp only [applySuccess, countSlotNonFailed_append_one, bumpFun]
    by_cases hs : s = item.slotId
    · subst hs
      simp [successExecOf, h1]
    · have hs2 : ¬ item.slotId = s := fun hh => hs hh.symm
      simp [successExecOf, hs, hs2, h1]
  · intro s
    simp only [applySuccess, hasFailedInSlot_append_one]
    have hne : decide ((successExecOf item).status = UploadStatus.failed) = false := by
      simp [successExecOf]
    simp [hne, h2]
  · intro s
    simp only [applySuccess, maxInsertedSeq_append_one]
    by_cases hs : s = item.slotId
    · subst hs
      simp [successExecOf, h3]
    · have hs2 : ¬ item.slotId = s := fun hh => hs hh.symm
      have hne : ¬ ((successExecOf item).slotId = s ∧
          (successExecOf item).status = UploadStatus.success) := by
        simp [successExecOf, hs2]
      simp [hs, hne, h3]

theorem stInv_applyFail {st : ExecState} (h : StInv st) (item : ExecutionUploadItem)
    (msg : String) : StInv (applyFail st item msg) := by
  obtain ⟨h1, h2, h3⟩ := h
  refine ⟨?_, ?_, ?_⟩
  · intro s
    simp only [applyFail, countSlotNonFailed_append_one]
    have hne : ¬ ((failedExecOf item msg).slotId = s ∧
        (failedExecOf item msg).status ≠ UploadStatus.failed) := by simp [failedExecOf]
    simp [hne, h1]
  · intro s
    simp only [applyFail, hasFailedInSlot_append_one]
    by_cases hs : s = item.slotId
    · subst hs
      simp [failedExecOf]
    · have hs2 : decide ((failedExecOf item msg).slotId = s) = false := by
        have : ¬ item.slotId = s := fun hh => hs hh.symm
        simpa [failedExecOf] using this
      simp [hs, hs2, h2]
  · intro s
    simp only [applyFail, maxInsertedSeq_append_one]
    have hne : ¬ ((failedExecOf item msg).slotId = s ∧
        (failedExecOf item msg).status = UploadStatus.success) := by simp [failedExecOf]
    simp [hne, h3]

theorem execLoop_inv (env : ExecEnv) (totals : List (String × Nat)) (store : SlotStore) :
    ∀ (items : List ExecutionUploadItem) (idx : Nat) (st : ExecState),
      StInv st → StInv (execLoop env totals store items idx st).finalState := by
  intro items
  induction items with
  | nil => intro idx st h; simpa [execLoop] using h
  | cons item rest ih =>
    intro idx st h
    cases hv : stepVerdict env idx st.ledger item with
    | skip =>
      have hloop : execLoop env totals store (item :: rest) idx st =
          execLoop env totals store rest (idx + 1) (applySkip st item) := by
        simp [execLoop, hv]
      rw [hloop]
      exact ih (idx + 1) (applySkip st item) (stInv_applySkip h item)
    | succeed =>
      have hloop : execLoop env totals store (item :: rest) idx st =
          execLoop env totals store rest (idx + 1) (applySuccess env.driveRootPath st item) := by
        simp [execLoop, hv]
      rw [hloop]
      exact ih (idx + 1) _ (stInv_applySuccess h env.driveRootPath item)
    | fail msg =>
      have hloop : (execLoop env totals store (item :: rest) idx st).finalState =
          applyFail st item msg := by
        simp [execLoop, hv]
      rw [hloop]
      exact stInv_applyFail h item msg

theorem execLoop_finalState (env : ExecEnv) (totals : List (String × Nat))
    (store : SlotStore) :
    ∀ (items : List ExecutionUploadItem) (idx : Nat) (st : ExecState),
      (execLoop env totals store items idx st).output.results =
        (execLoop env totals store items idx st).finalState.results ∧
      (execLoop env totals store items idx st).output.executionResults =
        (execLoop env totals store items idx st).finalState.executionResults ∧
      (execLoop env totals store items idx st).ledger =
        (execLoop env totals store items idx st).finalState.ledger ∧
      (execLoop env totals store items idx st).slotStore =
        (finalizeSlotSequences (execLoop env totals store items idx st).finalState
          totals store).1 ∧
      (execLoop env totals store items idx st).slotUpdates =
        (finalizeSlotSequences (execLoop env totals store items idx st).finalState
          totals store).2 := by
  intro items
  induction items with
  | nil => intro idx st; simp [execLoop, mkOkOutput]
  | cons item rest ih =>
    intro idx st
    cases hv : stepVerdict env idx st.ledger item with
    | skip =>
      have hloop : execLoop env totals store (item :: rest) idx st =
          execLoop env totals store rest (idx + 1) (applySkip st item) := by
        simp [execLoop, hv]
      rw [hloop]
      exact ih (idx + 1) (applySkip st item)
    | succeed =>
      have hloop : execLoop env totals store (item :: rest) idx st =
          execLoop env totals store rest (idx + 1) (applySuccess env.driveRootPath st item) := by
        simp [execLoop, hv]
      rw [hloop]
      exact ih (idx + 1) _
    | fail msg =>
      simp [execLoop, hv, mkFailOutput, applyFail]

/-! ### `slotTotals` and `finalizeSlotSequences` lemmas -/

/-- Value stored under a key in an association list (0 when absent). -/
def totalFor : List (String × Nat) → String → Nat
  | [], _ => 0
  | (k, n) :: rest, s => if k = s then n else totalFor rest s

theorem countSlotItems_cons (s : String) (item : ExecutionUploadItem)
    (items : List ExecutionUploadItem) :
    countSlotItems s (item :: items) =
      (if item.slotId = s then 1 else 0) + countSlotItems s items := by
  simp only [countSlotItems, List.filter_cons]
  by_cases h : item.slotId = s
  · simp [h]; omega
  · simp [h]

theorem totalFor_bumpTotal :
    ∀ (m : List (String × Nat)) (k s : String),
      totalFor (bumpTotal m k) s = totalFor m s + (if k = s then 1 else 0) := by
  intro m
  induction m with
  | nil =>
    intro k s
    simp only [bumpTotal, totalFor]
    by_cases h : k = s <;> simp [h]
  | cons p rest ih =>
    intro k s
    obtain ⟨k0, n0⟩ := p
    simp only [bumpTotal]
    by_cases h0 : k0 = k
    · subst h0
      simp only [if_pos rfl, totalFor]
      by_cases hs : k0 = s <;> simp [hs]
    · simp only [h0, if_false, totalFor]
      by_cases hs : k0 = s
      · subst hs
        have : ¬ k = k0 := fun hh => h0 hh.symm
        simp [this]
      · simp [hs, ih]

theorem keys_bumpTotal :
    ∀ (m : List (String × Nat)) (k : String),
      (bumpTotal m k).map Prod.fst =
        if k ∈ m.map Prod.fst then m.map Prod.fst else m.map Prod.fst ++ [k] := by
  intro m
  induction m with
  | nil => intro k; simp [bumpTotal]
  | cons p rest ih =>
    intro k
    obtain ⟨k0, n0⟩ := p
    simp only [bumpTotal]
    by_cases h0 : k0 = k
    · subst h0
      simp
    · have h1 : ¬ k = k0 := fun hh => h0 hh.symm
      simp only [h0, if_false, List.map_cons, List.mem_cons]
      rw [ih k]
      by_cases hmem : k ∈ rest.map Prod.fst
      · simp [hmem, h1]
      · simp [hmem, h1]

theorem nodup_keys_bumpTotal {m : List (String × Nat)} {k : String}
    (h : (m.map Prod.fst).Nodup) : ((bumpTotal m k).map Prod.fst).Nodup := by
  rw [keys_bumpTotal]
  by_cases hmem : k ∈ m.map Prod.fst
  · simpa [hmem] using h
  · simp only [hmem, if_false]
    rw [List.nodup_append]
    refine ⟨h, List.nodup_singleton k, ?_⟩
    intro x hx hc
    rw [List.mem_singleton] at hc
    exact hmem (hc ▸ hx)

theorem mem_keys_bumpTotal {m : List (String × Nat)} {k s : String} :
    s ∈ (bumpTotal m k).map Prod.fst ↔ s ∈ m.map Prod.fst ∨ s = k := by
  rw [keys_bumpTotal]
  by_cases hmem : k ∈ m.map Prod.fst
  · simp only [hmem, if_true]
    constructor
    · exact fun h => Or.inl h
    · rintro (h | h)
      · exact h
      · exact h ▸ hmem
  · simp [hmem]

theorem slotTotalsGo_nodup :
    ∀ (items : List ExecutionUploadItem) (acc : List (String × Nat)),
      (acc.map Prod.fst).Nodup → ((slotTotalsGo acc items).map Prod.fst).Nodup := by
  intro items
  induction items with
  | nil => intro acc h; simpa [slotTotalsGo] using h
  | cons item rest ih =>
    intro acc h
    simp only [slotTotalsGo]
    exact ih (bumpTotal acc item.slotId) (nodup_keys_bumpTotal h)

theorem slotTotals_nodup (items : List ExecutionUploadItem) :
    ((slotTotals items).map Prod.fst).Nodup :=
  slotTotalsGo_nodup items [] (by simp)

theorem totalFor_slotTotalsGo :
    ∀ (items : List ExecutionUploadItem) (acc : List (String × Nat)) (s : String),
      totalFor (slotTotalsGo acc items) s = totalFor acc s + countSlotItems s items := by
  intro items
  induction items with
  | nil => intro acc s; simp [slotTotalsGo, countSlotItems]
  | cons item rest ih =>
    intro acc s
    simp only [slotTotalsGo]
    rw [ih, totalFor_bumpTotal, countSlotItems_cons]
    omega

theorem totalFor_slotTotals (items : List ExecutionUploadItem) (s : String) :
    totalFor (slotTotals items) s = countSlotItems s items := by
  rw [slotTotals, totalFor_slotTotalsGo]
  simp [totalFor]

theorem mem_keys_slotTotalsGo :
    ∀ (items : List ExecutionUploadItem) (acc : List (String × Nat)) (s : String),
      s ∈ (slotTotalsGo acc items).map Prod.fst ↔
        s ∈ acc.map Prod.fst ∨ countSlotItems s items ≠ 0 := by
  intro items
  induction items with
  | nil => intro acc s; simp [slotTotalsGo, countSlotItems]
  | cons item rest ih =>
    intro acc s
    simp only [slotTotalsGo]
    rw [ih, mem_keys_bumpTotal, countSlotItems_cons]
    by_cases hs : item.slotId = s
    · subst hs
      simp
    · have hs2 : ¬ s = item.slotId := fun hh => hs hh.symm
      simp [hs, hs2]

theorem mem_keys_slotTotals (items : List ExecutionUploadItem) (s : String) :
    s ∈ (slotTotals items).map Prod.fst ↔ countSlotItems s items ≠ 0 := by
  rw [slotTotals, mem_keys_slotTotalsGo]
  simp

theorem totalFor_of_mem :
    ∀ (m : List (String × Nat)) (s : String) (t : Nat),
      (m.map Prod.fst).Nodup → (s, t) ∈ m → totalFor m s = t := by
  intro m
  induction m with
  | nil => intro s t _ h; simp at h
  | cons p rest ih =>
    intro s t hnd hmem
    obtain ⟨k0, n0⟩ := p
    rcases List.mem_cons.mp hmem with heq | hmem2
    · injection heq with h1 h2
      subst h1
      subst h2
      simp [totalFor]
    · have hknotin : k0 ∉ rest.map Prod.fst := (List.nodup_cons.mp (by simpa using hnd)).1
      have hsin : s ∈ rest.map Prod.fst := List.mem_map.mpr ⟨(s, t), hmem2, rfl⟩
      have hne : ¬ k0 = s := fun hh => hknotin (hh ▸ hsin)
      simp only [totalFor, hne, if_false]
      exact ih s t (List.nodup_cons.mp (by simpa using hnd)).2 hmem2

theorem exists_mem_of_mem_keys :
    ∀ (m : List (String × Nat)) (s : String),
      s ∈ m.map Prod.fst → ∃ t, (s, t) ∈ m := by
  intro m s h
  obtain ⟨p, hp, hfst⟩ := List.mem_map.mp h
  refine ⟨p.2, ?_⟩
  have hps : p = (s, p.2) := by
    cases p with
    | mk a b =>
      simp only at hfst
      simp [hfst]
  rwa [hps] at hp

theorem finalize_frame (st : ExecState) :
    ∀ (totals : List (String × Nat)) (store : SlotStore) (s : String),
      s ∉ totals.map Prod.fst →
      (finalizeSlotSequences st totals store).1 s = store s ∧
      (∀ v, (s, v) ∉ (finalizeSlotSequences st totals store).2) := by
  intro totals
  induction totals with
  | nil => intro store s h; simp [finalizeSlotSequences]
  | cons p rest ih =>
    intro store s h
    obtain ⟨k, t0⟩ := p
    have hrest : s ∉ rest.map Prod.fst := by
      simp only [List.map_cons, List.mem_cons] at h
      exact fun hh => h (Or.inr hh)
    have hsk : ¬ s = k := by
      simp only [List.map_cons, List.mem_cons] at h
      exact fun hh => h (Or.inl hh)
    simp only [finalizeSlotSequences]
    cases hf : st.slotFailed k with
    | true => simpa using ih store s hrest
    | false =>
      simp only [Bool.false_eq_true, if_false]
      by_cases hsc : st.slotSucceeded k ≠ t0
      · simpa [hsc] using ih store s hrest
      · simp only [hsc, if_false]
        by_cases hmx : st.slotMaxInserted k = 0
        · simpa [hmx] using ih store s hrest
        · simp only [hmx, if_false]
          have hup := ih (updateSlotCurrentSequence store k (st.slotMaxInserted k)).1 s hrest
          refine ⟨?_, ?_⟩
          · rw [hup.1]
            simp [updateSlotCurrentSequence, hsk]
          · intro v hv
            simp only [List.mem_cons] at hv
            rcases hv with hv | hv
            · exact hsk (congrArg Prod.fst hv)
            · exact hup.2 v hv

theorem finalize_mono (st : ExecState) :
    ∀ (totals : List (String × Nat)) (store : SlotStore) (s : String),
      store s ≤ (finalizeSlotSequences st totals store).1 s := by
  intro totals
  induction totals with
  | nil => intro store s; simp [finalizeSlotSequences]
  | cons p rest ih =>
    intro store s
    obtain ⟨k, t0⟩ := p
    simp only [finalizeSlotSequences]
    cases hf : st.slotFailed k with
    | true => simpa using ih store s
    | false =>
      simp only [Bool.false_eq_true, if_false]
      by_cases hsc : st.slotSucceeded k ≠ t0
      · simpa [hsc] using ih store s
      · simp only [hsc, if_false]
        by_cases hmx : st.slotMaxInserted k = 0
        · simpa [hmx] using ih store s
        · simp only [hmx, if_false]
          have hup := ih (updateSlotCurrentSequence store k (st.slotMaxInserted k)).1 s
          refine le_trans ?_ hup
          simp only [updateSlotCurrentSequence]
          by_cases hsk : s = k
          · subst hsk; simp
          · simp [hsk]

theorem finalize_updates_sound (st : ExecState) :
    ∀ (totals : List (String × Nat)) (store : SlotStore),
      (totals.map Prod.fst).Nodup →
      ∀ (s : String) (v : Nat), (s, v) ∈ (finalizeSlotSequences st totals store).2 →
        s ∈ totals.map Prod.fst ∧ st.slotFailed s = false ∧
        st.slotSucceeded s = totalFor totals s ∧ st.slotMaxInserted s ≠ 0 ∧
        v = max (store s) (st.slotMaxInserted s) := by
  intro totals
  induction totals with
  | nil => intro store _ s v h; simp [finalizeSlotSequences] at h
  | cons p rest ih =>
    intro store hnd s v h
    obtain ⟨k, t0⟩ := p
    have hknotin : k ∉ rest.map Prod.fst := (List.nodup_cons.mp (by simpa using hnd)).1
    have hndrest : (rest.map Prod.fst).Nodup := (List.nodup_cons.mp (by simpa using hnd)).2
    simp only [finalizeSlotSequences] at h
    cases hf : st.slotFailed k with
    | true =>
      rw [hf] at h
      simp only [if_true] at h
      obtain ⟨hmem, hrest⟩ := ih store hndrest s v h
      have hsk : ¬ k = s := fun hh => hknotin (hh ▸ hmem)
      exact ⟨by simp [hmem], hrest.1, by simpa [totalFor, hsk] using hrest.2.1,
        hrest.2.2.1, hrest.2.2.2⟩
    | false =>
      rw [hf] at h
      simp only [Bool.false_eq_true, if_false] at h
      by_cases hsc : st.slotSucceeded k ≠ t0
      · rw [if_pos hsc] at h
        obtain ⟨hmem, hrest⟩ := ih store hndrest s v h
        have hsk : ¬ k = s := fun hh => hknotin (hh ▸ hmem)
        exact ⟨by simp [hmem], hrest.1, by simpa [totalFor, hsk] using hrest.2.1,
          hrest.2.2.1, hrest.2.2.2⟩
      · rw [if_neg hsc] at h
        by_cases hmx : st.slotMaxInserted k = 0
        · rw [if_pos hmx] at h
          obtain ⟨hmem, hrest⟩ := ih store hndrest s v h
          have hsk : ¬ k = s := fun hh => hknotin (hh ▸ hmem)
          exact ⟨by simp [hmem], hrest.1, by simpa [totalFor, hsk] using hrest.2.1,
            hrest.2.2.1, hrest.2.2.2⟩
        · rw [if_neg hmx] at h
          simp only [List.mem_cons] at h
          rcases h with h | h
          · injection h with h1 h2
            subst h1
            push_neg at hsc
            refine ⟨by simp, hf, by simp [totalFor, hsc], hmx, ?_⟩
            rw [h2]
            simp [updateSlotCurrentSequence]
          · obtain ⟨hmem, hrest⟩ :=
              ih (updateSlotCurrentSequence store k (st.slotMaxInserted k)).1 hndrest s v h
            have hsk : ¬ k = s := fun hh => hknotin (hh ▸ hmem)
            have hsk2 : ¬ s = k := fun hh => hsk hh.symm
            refine ⟨by simp [hmem], hrest.1, by simpa [totalFor, hsk] using hrest.2.1,
              hrest.2.2.1, ?_⟩
            rw [hrest.2.2.2]
            simp [updateSlotCurrentSequence, hsk2]

theorem finalize_value (st : ExecState) :
    ∀ (totals : List (String × Nat)) (store : SlotStore),
      (totals.map Prod.fst).Nodup →
      ∀ s, s ∈ totals.map Prod.fst →
        (st.slotFailed s = false ∧ st.slotSucceeded s = totalFor totals s ∧
            st.slotMaxInserted s ≠ 0 →
          (finalizeSlotSequences st totals store).1 s =
            max (store s) (st.slotMaxInserted s) ∧
          (s, max (store s) (st.slotMaxInserted s)) ∈
            (finalizeSlotSequences st totals store).2) ∧
        (¬ (st.slotFailed s = false ∧ st.slotSucceeded s = totalFor totals s ∧
            st.slotMaxInserted s ≠ 0) →
          (finalizeSlotSequences st totals store).1 s = store s ∧
          ∀ v, (s, v) ∉ (finalizeSlotSequences st totals store).2) := by
  intro totals
  induction totals with
  | nil => intro store _ s hs; simp at hs
  | cons p rest ih =>
    intro store hnd s hs
    obtain ⟨k, t0⟩ := p
    have hknotin : k ∉ rest.map Prod.fst := (List.nodup_cons.mp (by simpa using hnd)).1
    have hndrest : (rest.map Prod.fst).Nodup := (List.nodup_cons.mp (by simpa using hnd)).2
    simp only [List.map_cons, List.mem_cons] at hs
    rcases hs with hs | hs
    · subst hs
      have htf : totalFor ((s, t0) :: rest) s = t0 := by simp [totalFor]
      simp only [finalizeSlotSequences, htf]
      cases hf : st.slotFailed s with
      | true =>
        simp only [if_true]
        constructor
        · intro hcond
          exact absurd hcond.1 (by simp [hf])
        · intro _
          exact finalize_frame st rest store s hknotin
      | false =>
        simp only [Bool.false_eq_true, if_false]
        by_cases hsc : st.slotSucceeded s ≠ t0
        · rw [if_pos hsc]
          constructor
          · intro hcond
            exact absurd hcond.2.1 hsc
          · intro _
            exact finalize_frame st rest store s hknotin
        · rw [if_neg hsc]
          push_neg at hsc
          by_cases hmx : st.slotMaxInserted s = 0
          · rw [if_pos hmx]
            constructor
            · intro hcond
              exact absurd hmx hcond.2.2
            · intro _
              exact finalize_frame st rest store s hknotin
          · rw [if_neg hmx]
            constructor
            · intro _
              have hframe := finalize_frame st rest
                (updateSlotCurrentSequence store s (st.slotMaxInserted s)).1 s hknotin
              refine ⟨?_, ?_⟩
              · rw [hframe.1]
                simp [updateSlotCurrentSequence]
              · simp [updateSlotCurrentSequence]
            · intro hncond
              exact absurd ⟨by simp, hsc, hmx⟩ hncond
    · have hsin : s ∈ rest.map Prod.fst := hs
      have hks : ¬ k = s := fun hh => hknotin (hh ▸ hsin)
      have htf : totalFor ((k, t0) :: rest) s = totalFor rest s := by
        simp [totalFor, hks]
      simp only [finalizeSlotSequences, htf]
      cases hf : st.slotFailed k with
      | true =>
        simp only [if_true]
        exact ih store hndrest s hsin
      | false =>
        simp only [Bool.false_eq_true, if_false]
        by_cases hsc : st.slotSucceeded k ≠ t0
        · rw [if_pos hsc]
          exact ih store hndrest s hsin
        · rw [if_neg hsc]
          by_cases hmx : st.slotMaxInserted k = 0
          · rw [if_pos hmx]
            exact ih store hndrest s hsin
          · rw [if_neg hmx]
            have hsk : ¬ s = k := fun hh => hks hh.symm
            have hstore2 :
                (updateSlotCurrentSequence store k (st.slotMaxInserted k)).1 s = store s := by
              simp [updateSlotCurrentSequence, hsk]
            have hih := ih (updateSlotCurrentSequence store k (st.slotMaxInserted k)).1
              hndrest s hsin
            constructor
            · intro hcond
              obtain ⟨hv1, hv2⟩ := hih.1 hcond
              rw [hstore2] at hv1 hv2
              exact ⟨hv1, List.mem_cons_of_mem _ hv2⟩
            · intro hncond
              obtain ⟨hv1, hv2⟩ := hih.2 hncond
              rw [hstore2] at hv1
              refine ⟨hv1, ?_⟩
              intro v hv
              simp only [List.mem_cons] at hv
              rcases hv with hv | hv
              · exact hks (congrArg Prod.fst hv).symm
              · exact hv2 v hv

/-! ### Ledger lemmas -/

/-- Number of completed source-file ledger rows for one
(projectId, sha256) key. -/
def countKey (ledger : List LedgerEntry) (projectId sha256 : String) : Nat :=
  (ledger.filter fun e =>
    decide (e.projectId = projectId) && decide (e.sha256 = sha256) && e.isSourceFile).length

theorem memb_iff_countKey (l : List LedgerEntry) (p h : String) :
    projectUploadExistsBySha256 l p h = true ↔ countKey l p h ≠ 0 := by
  induction l with
  | nil => simp [projectUploadExistsBySha256, countKey]
  | cons e rest ih =>
    simp only [projectUploadExistsBySha256, countKey, List.any_cons, List.filter_cons] at ih ⊢
    by_cases hc : (decide (e.projectId = p) && decide (e.sha256 = h) && e.isSourceFile) = true
    · simp [hc]
    · have hc2 : (decide (e.projectId = p) && decide (e.sha256 = h) && e.isSourceFile) = false :=
        Bool.eq_false_iff.mpr hc
      simp [hc2, ih]

theorem countKey_append (l1 l2 : List LedgerEntry) (p h : String) :
    countKey (l1 ++ l2) p h = countKey l1 p h + countKey l2 p h := by
  simp [countKey, List.filter_append]

theorem memb_append_left {l : List LedgerEntry} {p h : String}
    (hm : projectUploadExistsBySha256 l p h = true) (l2 : List LedgerEntry) :
    projectUploadExistsBySha256 (l ++ l2) p h = true := by
  simp only [projectUploadExistsBySha256, List.any_append, Bool.or_eq_true]
  exact Or.inl hm

theorem countKey_insert (l : List LedgerEntry) (item : ExecutionUploadItem)
    (p h : String) :
    countKey (insertProjectUploadSuccess l item) p h =
      countKey l p h + (if item.projectId = p ∧ item.sha256 = h then 1 else 0) := by
  rw [insertProjectUploadSuccess, countKey_append]
  congr 1
  by_cases h1 : item.projectId = p
  · by_cases h2 : item.sha256 = h
    · simp [countKey, h1, h2]
    · simp [countKey, h1, h2]
  · simp [countKey, h1]

theorem stepVerdict_skip_iff (env : ExecEnv) (idx : Nat) (ledger : List LedgerEntry)
    (item : ExecutionUploadItem) :
    stepVerdict env idx ledger item = StepVerdict.skip ↔
      env.dedupErr idx = none ∧
      projectUploadExistsBySha256 ledger item.projectId item.sha256 = true := by
  simp only [stepVerdict]
  cases hd : env.dedupErr idx with
  | some e => simp
  | none =>
    simp only
    by_cases hm : projectUploadExistsBySha256 ledger item.projectId item.sha256 = true
    · simp [hm]
    · have hm2 := Bool.eq_false_iff.mpr hm
      rw [if_neg (by simp [hm2])]
      cases env.copy idx with
      | error e => simp [hm2]
      | ok destSize =>
        by_cases hs : destSize ≠ item.sizeBytes
        · simp [hs, hm2]
        · simp only [hs, if_false]
          cases env.insertErr idx with
          | some e => simp [hm2]
          | none => simp [hm2]

theorem stepVerdict_succeed_memb {env : ExecEnv} {idx : Nat} {ledger : List LedgerEntry}
    {item : ExecutionUploadItem}
    (hv : stepVerdict env idx ledger item = StepVerdict.succeed) :
    projectUploadExistsBySha256 ledger item.projectId item.sha256 = false := by
  simp only [stepVerdict] at hv
  cases hd : env.dedupErr idx with
  | some e => rw [hd] at hv; simp at hv
  | none =>
    rw [hd] at hv
    by_cases hm : projectUploadExistsBySha256 ledger item.projectId item.sha256 = true
    · rw [if_pos hm] at hv; simp at hv
    · exact Bool.eq_false_iff.mpr hm

theorem execLoop_ledger_inv (env : ExecEnv) (totals : List (String × Nat))
    (store : SlotStore) :
    ∀ (items : List ExecutionUploadItem) (idx : Nat) (st : ExecState),
      (∀ p h, projectUploadExistsBySha256 st.ledger p h = true →
        countKey (execLoop env totals store items idx st).ledger p h =
          countKey st.ledger p h) ∧
      ((∀ p h, countKey st.ledger p h ≤ 1) →
        ∀ p h, countKey (execLoop env totals store items idx st).ledger p h ≤ 1) := by
  intro items
  induction items with
  | nil => intro idx st; simp [execLoop]
  | cons item rest ih =>
    intro idx st
    cases hv : stepVerdict env idx st.ledger item with
    | skip =>
      have hloop : execLoop env totals store (item :: rest) idx st =
          execLoop env totals store rest (idx + 1) (applySkip st item) := by
        simp [execLoop, hv]
      rw [hloop]
      have hsk : (applySkip st item).ledger = st.ledger := rfl
      constructor
      · intro p h hm
        have := (ih (idx + 1) (applySkip st item)).1 p h (by rwa [hsk])
        rwa [hsk] at this
      · intro hb p h
        exact (ih (idx + 1) (applySkip st item)).2 (by rwa [hsk]) p h
    | succeed =>
      have hloop : execLoop env totals store (item :: rest) idx st =
          execLoop env totals store rest (idx + 1) (applySuccess env.driveRootPath st item) := by
        simp [execLoop, hv]
      rw [hloop]
      have hmemb := stepVerdict_succeed_memb hv
      have hled : (applySuccess env.driveRootPath st item).ledger =
          insertProjectUploadSuccess st.ledger item := rfl
      constructor
      · intro p h hm
        have hkey : ¬ (item.projectId = p ∧ item.sha256 = h) := by
          rintro ⟨rfl, rfl⟩
          rw [hm] at hmemb
          exact absurd hmemb (by simp)
        have hins : countKey (applySuccess env.driveRootPath st item).ledger p h =
            countKey st.ledger p h := by
          rw [hled, countKey_insert, if_neg hkey]
          omega
        have hm2 : projectUploadExistsBySha256
            (applySuccess env.driveRootPath st item).ledger p h = true := by
          rw [hled, insertProjectUploadSuccess]
          exact memb_append_left hm _
        have := (ih (idx + 1) (applySuccess env.driveRootPath st item)).1 p h hm2
        rw [this, hins]
      · intro hb p h
        refine (ih (idx + 1) (applySuccess env.driveRootPath st item)).2 ?_ p h
        intro p2 h2
        rw [hled, countKey_insert]
        by_cases hkey : item.projectId = p2 ∧ item.sha256 = h2
        · rw [if_pos hkey]
          have hz : countKey st.ledger p2 h2 = 0 := by
            obtain ⟨hk1, hk2⟩ := hkey
            subst hk1; subst hk2
            by_contra hnz
            have := (memb_iff_countKey st.ledger item.projectId item.sha256).mpr hnz
            rw [this] at hmemb
            exact absurd hmemb (by simp)
          omega
        · rw [if_neg hkey]
          simpa using hb p2 h2
    | fail msg =>
      have hloop : (execLoop env totals store (item :: rest) idx st).ledger =
          st.ledger := by
        simp [execLoop, hv, applyFail]
      rw [hloop]
      exact ⟨fun p h _ => rfl, fun hb p h => hb p h⟩

theorem execLoop_skip_at (env : ExecEnv) (totals : List (String × Nat)) (store : SlotStore) :
    ∀ (items : List ExecutionUploadItem) (idx : Nat) (st : ExecState) (j : Nat)
      (item : ExecutionUploadItem),
      items.get? j = some item →
      env.dedupErr (idx + j) = none →
      projectUploadExistsBySha256 st.ledger item.projectId item.sha256 = true →
      st.executionResults.length = st.results.length →
      st.results.length + j < (execLoop env totals store items idx st).output.results.length →
      (execLoop env totals store items idx st).output.results.get?
        (st.results.length + j) = some (skippedResultOf item) ∧
      (execLoop env totals store items idx st).output.executionResults.get?
        (st.results.length + j) = some (skippedExecOf item) := by
  intro items
  induction items with
  | nil => intro idx st j item hget; simp at hget
  | cons item0 rest ih =>
    intro idx st j item hget hd hm hlen hlt
    cases j with
    | zero =>
      have heq : item0 = item := by simpa using hget
      subst heq
      have hv : stepVerdict env idx st.ledger item0 = StepVerdict.skip :=
        (stepVerdict_skip_iff env idx st.ledger item0).mpr ⟨by simpa using hd, hm⟩
      have hloop : execLoop env totals store (item0 :: rest) idx st =
          execLoop env totals store rest (idx + 1) (applySkip st item0) := by
        simp [execLoop, hv]
      rw [hloop]
      obtain ⟨n, newR, newE, _, _, _, h4, h5, _⟩ :=
        execLoop_trace env totals store rest (idx + 1) (applySkip st item0)
      constructor
      · rw [h4]
        show ((st.results ++ [skippedResultOf item0]) ++ newR).get? (st.results.length + 0) =
          some (skippedResultOf item0)
        rw [List.append_assoc, List.get?_append_right (by omega)]
        simp
      · rw [h5]
        show ((st.executionResults ++ [skippedExecOf item0]) ++ newE).get?
          (st.results.length + 0) = some (skippedExecOf item0)
        rw [List.append_assoc, List.get?_append_right (by omega)]
        simp [hlen]
    | succ j0 =>
      have hget2 : rest.get? j0 = some item := by simpa using hget
      have hidx : idx + (j0 + 1) = (idx + 1) + j0 := by omega
      rw [hidx] at hd
      cases hv : stepVerdict env idx st.ledger item0 with
      | skip =>
        have hloop : execLoop env totals store (item0 :: rest) idx st =
            execLoop env totals store rest (idx + 1) (applySkip st item0) := by
          simp [execLoop, hv]
        rw [hloop] at hlt ⊢
        have harith : st.results.length + (j0 + 1) =
            (applySkip st item0).results.length + j0 := by
          simp [applySkip]
          omega
        rw [harith] at hlt ⊢
        exact ih (idx + 1) (applySkip st item0) j0 item hget2 hd
          (by simpa [applySkip] using hm) (by simp [applySkip, hlen]) hlt
      | succeed =>
        have hloop : execLoop env totals store (item0 :: rest) idx st =
            execLoop env totals store rest (idx + 1)
              (applySuccess env.driveRootPath st item0) := by
          simp [execLoop, hv]
        rw [hloop] at hlt ⊢
        have harith : st.results.length + (j0 + 1) =
            (applySuccess env.driveRootPath st item0).results.length + j0 := by
          simp [applySuccess]
          omega
        rw [harith] at hlt ⊢
        have hm2 : projectUploadExistsBySha256
            (applySuccess env.driveRootPath st item0).ledger item.projectId
            item.sha256 = true := by
          show projectUploadExistsBySha256
            (insertProjectUploadSuccess st.ledger item0) item.projectId item.sha256 = true
          rw [insertProjectUploadSuccess]
          exact memb_append_left hm _
        exact ih (idx + 1) (applySuccess env.driveRootPath st item0) j0 item hget2 hd hm2
          (by simp [applySuccess, hlen]) hlt
      | fail msg =>
        have hres : (execLoop env totals store (item0 :: rest) idx st).output.results =
            st.results ++ [failedResultOf item0 msg] := by
          simp [execLoop, hv, mkFailOutput, applyFail]
        rw [hres] at hlt
        simp at hlt

theorem execLoop_env_agree (env env' : ExecEnv) (totals : List (String × Nat))
    (store : SlotStore) (hdr : env'.driveRootPath = env.driveRootPath) :
    ∀ (items : List ExecutionUploadItem) (idx : Nat) (st : ExecState) (n : Nat),
      (execLoop env totals store items idx st).output.results.length =
        st.results.length + n →
      (∀ j, idx ≤ j → j < idx + n →
        env'.dedupErr j = env.dedupErr j ∧ env'.copy j = env.copy j ∧
        env'.insertErr j = env.insertErr j) →
      execLoop env' totals store items idx st = execLoop env totals store items idx st := by
  intro items
  induction items with
  | nil => intro idx st n _ _; rfl
  | cons item rest ih =>
    intro idx st n hn hagree
    have hpos : 1 ≤ n := by
      obtain ⟨n0, newR, newE, e1, e2, _, e4, _, _, _, _, _, _, _, e12, e13⟩ :=
        execLoop_trace env totals store (item :: rest) idx st
      have hlen : (execLoop env totals store (item :: rest) idx st).output.results.length =
          st.results.length + n0 := by rw [e4]; simp [e2]
      have hn0 : n = n0 := by omega
      subst hn0
      cases hsucc : (execLoop env totals store (item :: rest) idx st).output.success with
      | true =>
        have := (e12 hsucc).1
        simp [this]
      | false => exact (e13 hsucc).2.1
    have hag0 := hagree idx (le_refl idx) (by omega)
    have hsv : stepVerdict env' idx st.ledger item = stepVerdict env idx st.ledger item := by
      simp only [stepVerdict, hag0.1, hag0.2.1, hag0.2.2]
    cases hv : stepVerdict env idx st.ledger item with
    | skip =>
      have hloop : execLoop env totals store (item :: rest) idx st =
          execLoop env totals store rest (idx + 1) (applySkip st item) := by
        simp [execLoop, hv]
      have hloop' : execLoop env' totals store (item :: rest) idx st =
          execLoop env' totals store rest (idx + 1) (applySkip st item) := by
        simp [execLoop, hsv, hv]
      rw [hloop', hloop]
      rw [hloop] at hn
      refine ih (idx + 1) (applySkip st item) (n - 1) ?_ ?_
      · have : (applySkip st item).results.length = st.results.length + 1 := by
          simp [applySkip]
        omega
      · intro j hj1 hj2
        exact hagree j (by omega) (by omega)
    | succeed =>
      have hloop : execLoop env totals store (item :: rest) idx st =
          execLoop env totals store rest (idx + 1)
            (applySuccess env.driveRootPath st item) := by
        simp [execLoop, hv]
      have hloop' : execLoop env' totals store (item :: rest) idx st =
          execLoop env' totals store rest (idx + 1)
            (applySuccess env.driveRootPath st item) := by
        rw [← hdr]
        simp [execLoop, hsv, hv, hdr]
      rw [hloop, hloop']
      rw [hloop] at hn
      refine ih (idx + 1) (applySuccess env.driveRootPath st item) (n - 1) ?_ ?_
      · have : (applySuccess env.driveRootPath st item).results.length =
            st.results.length + 1 := by
          simp [applySuccess]
        omega
      · intro j hj1 hj2
        exact hagree j (by omega) (by omega)
    | fail msg =>
      have hloop : execLoop env totals store (item :: rest) idx st =
          { output := mkFailOutput (applyFail st item msg) item msg
            ledger := (applyFail st item msg).ledger
            slotStore := (finalizeSlotSequences (applyFail st item msg) totals store).1
            slotUpdates := (finalizeSlotSequences (applyFail st item msg) totals store).2
            finalState := applyFail st item msg } := by
        simp [execLoop, hv]
      have hloop' : execLoop env' totals store (item :: rest) idx st =
          { output := mkFailOutput (applyFail st item msg) item msg
            ledger := (applyFail st item msg).ledger
            slotStore := (finalizeSlotSequences (applyFail st item msg) totals store).1
            slotUpdates := (finalizeSlotSequences (applyFail st item msg) totals store).2
            finalState := applyFail st item msg } := by
        simp [execLoop, hsv, hv]
      rw [hloop, hloop']

theorem execLoop_exec_slotIds (env : ExecEnv) (totals : List (String × Nat))
    (store : SlotStore) :
    ∀ (items : List ExecutionUploadItem) (idx : Nat) (st : ExecState),
      ∃ (n : Nat) (newE : List ExecutionResult),
        n ≤ items.length ∧ newE.length = n ∧
        (execLoop env totals store items idx st).output.executionResults =
          st.executionResults ++ newE ∧
        newE.map (fun e => e.slotId) = (items.take n).map (fun i => i.slotId) := by
  intro items
  induction items with
  | nil =>
    intro idx st
    exact ⟨0, [], by simp, by simp, by simp [execLoop, mkOkOutput], by simp⟩
  | cons item rest ih =>
    intro idx st
    cases hv : stepVerdict env idx st.ledger item with
    | skip =>
      obtain ⟨n, newE, h1, h2, h3, h4⟩ := ih (idx + 1) (applySkip st item)
      have hloop : execLoop env totals store (item :: rest) idx st =
          execLoop env totals store rest (idx + 1) (applySkip st item) := by
        simp [execLoop, hv]
      rw [hloop]
      refine ⟨n + 1, skippedExecOf item :: newE, by simp; omega, by simp [h2], ?_, ?_⟩
      · rw [h3]; simp [applySkip]
      · simp [skippedExecOf, h4]
    | succeed =>
      obtain ⟨n, newE, h1, h2, h3, h4⟩ := ih (idx + 1) (applySuccess env.driveRootPath st item)
      have hloop : execLoop env totals store (item :: rest) idx st =
          execLoop env totals store rest (idx + 1)
            (applySuccess env.driveRootPath st item) := by
        simp [execLoop, hv]
      rw [hloop]
      refine ⟨n + 1, successExecOf item :: newE, by simp; omega, by simp [h2], ?_, ?_⟩
      · rw [h3]; simp [applySuccess]
      · simp [successExecOf, h4]
    | fail msg =>
      refine ⟨1, [failedExecOf item msg], by simp, by simp, ?_, by simp [failedExecOf]⟩
      simp [execLoop, hv, mkFailOutput, applyFail]

/-- Number of recorded results of a slot, any status. -/
def countSlotAll (s : String) (l : List ExecutionResult) : Nat :=
  (l.filter fun e => decide (e.slotId = s)).length

/-- Number of recorded failed results of a slot. -/
def countSlotFailed (s : String) (l : List ExecutionResult) : Nat :=
  (l.filter fun e => decide (e.slotId = s) && decide (e.status = UploadStatus.failed)).length

theorem countSlot_split (s : String) :
    ∀ (l : List ExecutionResult),
      countSlotNonFailed s l + countSlotFailed s l = countSlotAll s l := by
  intro l
  induction l with
  | nil => rfl
  | cons e rest ih =>
    simp only [countSlotNonFailed, countSlotFailed, countSlotAll, List.filter_cons] at ih ⊢
    by_cases h1 : e.slotId = s
    · by_cases h2 : e.status = UploadStatus.failed
      · simp [h1, h2] at ih ⊢
        omega
      · simp [h1, h2] at ih ⊢
        omega
    · simp [h1] at ih ⊢
      omega

theorem hasFailed_countSlotFailed (s : String) (l : List ExecutionResult)
    (h : hasFailedInSlot s l = true) : 1 ≤ countSlotFailed s l := by
  induction l with
  | nil => simp [hasFailedInSlot] at h
  | cons e rest ih =>
    simp only [hasFailedInSlot, List.any_cons, Bool.or_eq_true] at h
    simp only [countSlotFailed, List.filter_cons]
    rcases h with h | h
    · simp [h]
    · have := ih (by simpa [hasFailedInSlot] using h)
      by_cases hc : (decide (e.slotId = s) && decide (e.status = UploadStatus.failed)) = true
      · simp [hc]
      · rw [Bool.eq_false_iff.mpr hc]
        simpa [countSlotFailed] using this

theorem countSlotAll_zero_iff (s : String) (l : List ExecutionResult) :
    countSlotAll s l = 0 ↔ ∀ e ∈ l, ¬ e.slotId = s := by
  simp only [countSlotAll, List.length_eq_zero, List.filter_eq_nil_iff]
  constructor
  · intro h e he
    have := h e he
    simpa using this
  · intro h e he
    simpa using h e he

theorem maxInsertedSeq_zero_of_no_success (s : String) :
    ∀ (l : List ExecutionResult),
      (∀ e ∈ l, e.slotId = s → ¬ e.status = UploadStatus.success) →
      maxInsertedSeq s l = 0 := by
  intro l
  induction l using List.reverseRecOn with
  | nil => intro _; rfl
  | append_singleton rest e ih =>
    intro h
    rw [maxInsertedSeq_append_one]
    have hrest := ih fun x hx hs => h x (by simp [hx]) hs
    by_cases hc : e.slotId = s ∧ e.status = UploadStatus.success
    · exact absurd hc.2 (h e (by simp) hc.1)
    · simp [hc, hrest]

theorem maxInsertedSeq_ne_zero_witness (s : String) :
    ∀ (l : List ExecutionResult),
      maxInsertedSeq s l ≠ 0 →
      ∃ e ∈ l, e.slotId = s ∧ e.status = UploadStatus.success ∧ e.plannedSequence ≠ 0 := by
  intro l
  induction l using List.reverseRecOn with
  | nil => intro h; simp [maxInsertedSeq] at h
  | append_singleton rest e ih =>
    intro h
    rw [maxInsertedSeq_append_one] at h
    by_cases hc : e.slotId = s ∧ e.status = UploadStatus.success
    · rw [if_pos hc] at h
      by_cases hz : e.plannedSequence = 0
      · rw [hz] at h
        rw [Nat.max_zero] at h
        obtain ⟨x, hx, hrest⟩ := ih h
        exact ⟨x, by simp [hx], hrest⟩
      · exact ⟨e, by simp, hc.1, hc.2, hz⟩
    · rw [if_neg hc] at h
      obtain ⟨x, hx, hrest⟩ := ih h
      exact ⟨x, by simp [hx], hrest⟩

theorem countP_eq_of_map_eq {α β : Type} (f : α → String) (g : β → String)
    (l1 : List α) (l2 : List β) (h : l1.map f = l2.map g) (s : String) :
    (l1.filter fun x => decide (f x = s)).length =
      (l2.filter fun x => decide (g x = s)).length := by
  have h1 : (l1.filter fun x => decide (f x = s)).length =
      ((l1.map f).filter fun x => decide (x = s)).length := by
    rw [← List.countP_eq_length_filter, ← List.countP_eq_length_filter, List.countP_map]
    rfl
  have h2 : (l2.filter fun x => decide (g x = s)).length =
      ((l2.map g).filter fun x => decide (x = s)).length := by
    rw [← List.countP_eq_length_filter, ← List.countP_eq_length_filter, List.countP_map]
    rfl
  rw [h1, h2, h]

theorem countSlotItems_take_le (s : String) (n : Nat) (items : List ExecutionUploadItem) :
    countSlotItems s (items.take n) ≤ countSlotItems s items := by
  simp only [countSlotItems, ← List.countP_eq_length_filter]
  exact List.Sublist.countP_le _ (List.take_sublist n items)

theorem execLoop_skip_env_indep (env env' : ExecEnv) (totals : List (String × Nat))
    (store : SlotStore) (i : Nat)
    (hdr : env'.driveRootPath = env.driveRootPath)
    (hde : env'.dedupErr = env.dedupErr)
    (hagree : ∀ j, j ≠ i → env'.copy j = env.copy j ∧ env'.insertErr j = env.insertErr j)
    (hdi : env.dedupErr i = none) :
    ∀ (items : List ExecutionUploadItem) (idx : Nat) (st : ExecState),
      (∀ item, idx ≤ i → items.get? (i - idx) = some item →
        projectUploadExistsBySha256 st.ledger item.projectId item.sha256 = true) →
      execLoop env' totals store items idx st = execLoop env totals store items idx st := by
  intro items
  induction items with
  | nil => intro idx st _; rfl
  | cons item0 rest ih =>
    intro idx st hmemb
    by_cases hidx : idx = i
    · subst hidx
      have hm : projectUploadExistsBySha256 st.ledger item0.projectId item0.sha256 = true :=
        hmemb item0 (le_refl idx) (by simp [Nat.sub_self])
      have hv : stepVerdict env idx st.ledger item0 = StepVerdict.skip :=
        (stepVerdict_skip_iff env idx st.ledger item0).mpr ⟨hdi, hm⟩
      have hv' : stepVerdict env' idx st.ledger item0 = StepVerdict.skip :=
        (stepVerdict_skip_iff env' idx st.ledger item0).mpr ⟨by rw [hde]; exact hdi, hm⟩
      have hloop : execLoop env totals store (item0 :: rest) idx st =
          execLoop env totals store rest (idx + 1) (applySkip st item0) := by
        simp [execLoop, hv]
      have hloop' : execLoop env' totals store (item0 :: rest) idx st =
          execLoop env' totals store rest (idx + 1) (applySkip st item0) := by
        simp [execLoop, hv']
      rw [hloop, hloop']
      exact ih (idx + 1) (applySkip st item0) fun item hle _ => absurd hle (by omega)
    · have hsv : stepVerdict env' idx st.ledger item0 = stepVerdict env idx st.ledger item0 := by
        simp only [stepVerdict, hde, (hagree idx hidx).1, (hagree idx hidx).2]
      have hnext : ∀ (st2 : ExecState),
          (∀ p h, projectUploadExistsBySha256 st.ledger p h = true →
            projectUploadExistsBySha256 st2.ledger p h = true) →
          ∀ item, idx + 1 ≤ i → rest.get? (i - (idx + 1)) = some item →
            projectUploadExistsBySha256 st2.ledger item.projectId item.sha256 = true := by
        intro st2 hmono item hle hget
        refine hmono _ _ (hmemb item (by omega) ?_)
        have : i - idx = (i - (idx + 1)) + 1 := by omega
        rw [this]
        simpa using hget
      cases hv : stepVerdict env idx st.ledger item0 with
      | skip =>
        have hloop : execLoop env totals store (item0 :: rest) idx st =
            execLoop env totals store rest (idx + 1) (applySkip st item0) := by
          simp [execLoop, hv]
        have hloop' : execLoop env' totals store (item0 :: rest) idx st =
            execLoop env' totals store rest (idx + 1) (applySkip st item0) := by
          simp [execLoop, hsv, hv]
        rw [hloop, hloop']
        exact ih (idx + 1) (applySkip st item0) (hnext _ fun p h hm => hm)
      | succeed =>
        have hloop : execLoop env totals store (item0 :: rest) idx st =
            execLoop env totals store rest (idx + 1)
              (applySuccess env.driveRootPath st item0) := by
          simp [execLoop, hv]
        have hloop' : execLoop env' totals store (item0 :: rest) idx st =
            execLoop env' totals store rest (idx + 1)
              (applySuccess env.driveRootPath st item0) := by
          rw [← hdr]
          simp [execLoop, hsv, hv, hdr]
        rw [hloop, hloop']
        refine ih (idx + 1) (applySuccess env.driveRootPath st item0) (hnext _ ?_)
        intro p h hm
        show projectUploadExistsBySha256 (insertProjectUploadSuccess st.ledger item0) p h = true
        rw [insertProjectUploadSuccess]
        exact memb_append_left hm _
      | fail msg =>
        simp [execLoop, hsv, hv]

theorem execInitState_results (l : List LedgerEntry) : (execInitState l).results = [] := rfl

theorem execInitState_execResults (l : List LedgerEntry) :
    (execInitState l).executionResults = [] := rfl

theorem execInitState_uploadedCount (l : List LedgerEntry) :
    (execInitState l).uploadedCount = 0 := rfl

theorem execInitState_skippedCount (l : List LedgerEntry) :
    (execInitState l).skippedCount = 0 := rfl

theorem execInitState_failedCount (l : List LedgerEntry) :
    (execInitState l).failedCount = 0 := rfl

/-! ### Claim C9 -/

/-- C9: in every executor result, the three counters equal the numbers of
success, skipped and failed entries; `results` and `executionResults` hold
exactly one entry per processed input item, in input order, with matching
statuses; a completed run covers all items; a failed run has exactly one
failed entry, in last position. -/
theorem c9_result_bookkeeping (env : ExecEnv) (items : List ExecutionUploadItem)
    (ledger : List LedgerEntry) (store : SlotStore) :
    (executePlan env items ledger store).output.uploadedCount =
      countStatus UploadStatus.success (executePlan env items ledger store).output.results ∧
    (executePlan env items ledger store).output.skippedCount =
      countStatus UploadStatus.skipped (executePlan env items ledger store).output.results ∧
    (executePlan env items ledger store).output.failedCount =
      countStatus UploadStatus.failed (executePlan env items ledger store).output.results ∧
    (executePlan env items ledger store).output.results.length =
      (executePlan env items ledger store).output.executionResults.length ∧
    (executePlan env items ledger store).output.results.length ≤ items.length ∧
    (executePlan env items ledger store).output.results.map (fun r => r.sourcePath) =
      (items.take (executePlan env items ledger store).output.results.length).map
        (fun i => i.sourcePath) ∧
    (executePlan env items ledger store).output.executionResults.map
        (fun r => r.sourcePath) =
      (items.take (executePlan env items ledger store).output.results.length).map
        (fun i => i.sourcePath) ∧
    (executePlan env items ledger store).output.results.map (fun r => r.status) =
      (executePlan env items ledger store).output.executionResults.map
        (fun r => r.status) ∧
    ((executePlan env items ledger store).output.success = true →
      (executePlan env items ledger store).output.results.length = items.length) ∧
    ((executePlan env items ledger store).output.success = false →
      (executePlan env items ledger store).output.failedCount = 1 ∧
      (∃ r, (executePlan env items ledger store).output.results.getLast? = some r ∧
        r.status = UploadStatus.failed)) := by
  obtain ⟨n, newR, newE, h1, h2, h3, h4, h5, h6, h7, h8, h9, h10, h11, h12, h13⟩ :=
    execLoop_trace env (slotTotals items) store items 0 (execInitState ledger)
  simp only [execInitState_results, execInitState_execResults, execInitState_uploadedCount,
    execInitState_skippedCount, execInitState_failedCount, List.nil_append,
    Nat.zero_add] at h4 h5 h9 h10 h11
  simp only [executePlan]
  refine ⟨?_, ?_, ?_, ?_, ?_, ?_, ?_, ?_, ?_, ?_⟩
  · rw [h4]; exact h9
  · rw [h4]; exact h10
  · rw [h4]; exact h11
  · rw [h4, h5, h2, h3]
  · rw [h4, h2]; exact h1
  · rw [h4, h2]; exact h6
  · rw [h5, h4, h2]; exact h7
  · rw [h4, h5]; exact h8
  · intro hs
    rw [h4, h2]
    exact (h12 hs).1
  · intro hs
    obtain ⟨e1, _, e3, _, _, _⟩ := h13 hs
    refine ⟨by rw [h11, e1], ?_⟩
    rw [h4]
    exact e3

/-- Environment of the C9 witness: everything succeeds. -/
def c9Env : ExecEnv :=
  { driveRootPath := "/drive"
    dedupErr := fun _ => none
    copy := fun _ => Except.ok 4
    insertErr := fun _ => none }

/-- Single upload item of the C9 witness. -/
def c9Item : ExecutionUploadItem :=
  { projectId := "proj-1", slotId := "slot-1", sourcePath := "/media/a.jpg"
    sourceFilename := "a.jpg", destinationFilename := "P_0001.jpg"
    destinationPath := "drive://P/slot/slot-1/P_0001.jpg", plannedSequence := 1
    sha256 := "sha-9", sizeBytes := 4, projectCode := "P", slotCode := "S1"
    assetKind := "IMG", mimeType := "image/jpeg" }

/-- C9 witness: the bookkeeping equalities at a concrete one-item run. -/
theorem c9_result_bookkeeping_witness :
    (executePlan c9Env [c9Item] [] (fun _ => 0)).output.uploadedCount =
      countStatus UploadStatus.success
        (executePlan c9Env [c9Item] [] (fun _ => 0)).output.results ∧
    (executePlan c9Env [c9Item] [] (fun _ => 0)).output.results.length =
      (executePlan c9Env [c9Item] [] (fun _ => 0)).output.executionResults.length ∧
    (executePlan c9Env [c9Item] [] (fun _ => 0)).output.results.length = 1 := by
  have h := c9_result_bookkeeping c9Env [c9Item] [] (fun _ => 0)
  exact ⟨h.1, h.2.2.2.1, h.2.2.2.2.2.2.2.2.1 rfl⟩

/-! ### Claim C1 -/

/-- C1: a failed batch halted at its first failure — the result is
success=false, carries exactly one failed entry (the last), every earlier
entry is non-failed, `failedItem` is the item at the halting position, and
no item after the halting position was ever attempted: the whole outcome
is unchanged under any environment agreeing on the positions up to and
including the failure. -/
theorem c1_fail_fast (env : ExecEnv) (items : List ExecutionUploadItem)
    (ledger : List LedgerEntry) (store : SlotStore)
    (h : (executePlan env items ledger store).output.success = false) :
    1 ≤ (executePlan env items ledger store).output.results.length ∧
    (executePlan env items ledger store).output.results.length ≤ items.length ∧
    (executePlan env items ledger store).output.failedItem =
      items.get? ((executePlan env items ledger store).output.results.length - 1) ∧
    countStatus UploadStatus.failed
      (executePlan env items ledger store).output.results = 1 ∧
    (∃ r, (executePlan env items ledger store).output.results.getLast? = some r ∧
      r.status = UploadStatus.failed) ∧
    (∀ r ∈ (executePlan env items ledger store).output.results.dropLast,
      r.status ≠ UploadStatus.failed) ∧
    (∀ env' : ExecEnv, env'.driveRootPath = env.driveRootPath →
      (∀ j, j < (executePlan env items ledger store).output.results.length →
        env'.dedupErr j = env.dedupErr j ∧ env'.copy j = env.copy j ∧
        env'.insertErr j = env.insertErr j) →
      executePlan env' items ledger store = executePlan env items ledger store) := by
  obtain ⟨n, newR, newE, h1, h2, h3, h4, h5, h6, h7, h8, h9, h10, h11, h12, h13⟩ :=
    execLoop_trace env (slotTotals items) store items 0 (execInitState ledger)
  simp only [execInitState_results, execInitState_execResults, execInitState_uploadedCount,
    execInitState_skippedCount, execInitState_failedCount, List.nil_append,
    Nat.zero_add] at h4 h5 h9 h10 h11
  obtain ⟨e1, e2, e3, e4, e5, e6⟩ := h13 h
  simp only [executePlan]
  refine ⟨?_, ?_, ?_, ?_, ?_, ?_, ?_⟩
  · rw [h4, h2]; omega
  · rw [h4, h2]; exact h1
  · rw [h4, h2]; exact e5
  · rw [h4]; exact e1
  · rw [h4]; exact e3
  · rw [h4]; exact e4
  · intro env' hdr hagree
    refine execLoop_env_agree env env' (slotTotals items) store hdr items 0
      (execInitState ledger) n ?_ ?_
    · rw [h4, h2, execInitState_results]; simp
    · intro j hj1 hj2
      refine hagree j ?_
      rw [h4, h2]
      omega

/-- Environment of the C1 witness: the copy stream fails on every item. -/
def c1Env : ExecEnv :=
  { driveRootPath := "/drive"
    dedupErr := fun _ => none
    copy := fun _ => Except.error "ENOSPC: no space left on device, write"
    insertErr := fun _ => none }

/-- First upload item of the C1 witness. -/
def c1ItemA : ExecutionUploadItem :=
  { projectId := "proj-1", slotId := "slot-1", sourcePath := "/media/a.jpg"
    sourceFilename := "a.jpg", destinationFilename := "P_0001.jpg"
    destinationPath := "drive://P/slot/slot-1/P_0001.jpg", plannedSequence := 1
    sha256 := "sha-1a", sizeBytes := 2, projectCode := "P", slotCode := "S1"
    assetKind := "IMG", mimeType := "image/jpeg" }

/-- Second upload item of the C1 witness, never attempted. -/
def c1ItemB : ExecutionUploadItem :=
  { projectId := "proj-1", slotId := "slot-1", sourcePath := "/media/b.jpg"
    sourceFilename := "b.jpg", destinationFilename := "P_0002.jpg"
    destinationPath := "drive://P/slot/slot-1/P_0002.jpg", plannedSequence := 2
    sha256 := "sha-1b", sizeBytes := 3, projectCode := "P", slotCode := "S1"
    assetKind := "IMG", mimeType := "image/jpeg" }

/-- C1 witness: the fail-fast theorem applied to a two-item batch whose
first copy fails. -/
theorem c1_fail_fast_witness :
    countStatus UploadStatus.failed
      (executePlan c1Env [c1ItemA, c1ItemB] [] (fun _ => 0)).output.results = 1 ∧
    (executePlan c1Env [c1ItemA, c1ItemB] [] (fun _ => 0)).output.failedItem =
      [c1ItemA, c1ItemB].get?
        ((executePlan c1Env [c1ItemA, c1ItemB] [] (fun _ => 0)).output.results.length - 1) := by
  have h := c1_fail_fast c1Env [c1ItemA, c1ItemB] [] (fun _ => 0) rfl
  exact ⟨h.2.2.2.1, h.2.2.1⟩

/-! ### Claim C2 -/

theorem stInv_init (l : List LedgerEntry) : StInv (execInitState l) :=
  ⟨fun _ => rfl, fun _ => rfl, fun _ => rfl⟩

/-- C2: after every batch, the persisted per-slot counter never decreases;
a slot whose batch items all ended non-failed (uploaded or dedup-skipped,
covering the whole batch) ends at `max(existing, batch maximum inserted
sequence)`; a slot with a failed item is left untouched. -/
theorem c2_slot_counter_advance (env : ExecEnv) (items : List ExecutionUploadItem)
    (ledger : List LedgerEntry) (store : SlotStore) :
    (∀ s, store s ≤ (executePlan env items ledger store).slotStore s) ∧
    (∀ s, countSlotItems s items =
        countSlotNonFailed s (executePlan env items ledger store).output.executionResults →
      (executePlan env items ledger store).slotStore s =
        max (store s)
          (maxInsertedSeq s (executePlan env items ledger store).output.executionResults)) ∧
    (∀ s, hasFailedInSlot s
        (executePlan env items ledger store).output.executionResults = true →
      (executePlan env items ledger store).slotStore s = store s) := by
  simp only [executePlan]
  obtain ⟨hr, he, hl, hss, hsu⟩ :=
    execLoop_finalState env (slotTotals items) store items 0 (execInitState ledger)
  obtain ⟨i1, i2, i3⟩ :=
    execLoop_inv env (slotTotals items) store items 0 (execInitState ledger)
      (stInv_init ledger)
  obtain ⟨n2, newE2, hn2, hlen2, hE2, hmap2⟩ :=
    execLoop_exec_slotIds env (slotTotals items) store items 0 (execInitState ledger)
  rw [execInitState_execResults, List.nil_append] at hE2
  have hall_le : ∀ s,
      countSlotAll s (execLoop env (slotTotals items) store items 0
        (execInitState ledger)).finalState.executionResults ≤ countSlotItems s items := by
    intro s
    rw [← he, hE2]
    have heq : countSlotAll s newE2 = countSlotItems s (items.take n2) := by
      simp only [countSlotAll, countSlotItems]
      exact countP_eq_of_map_eq (fun e => e.slotId) (fun i => i.slotId) newE2
        (items.take n2) hmap2 s
    rw [heq]
    exact countSlotItems_take_le s n2 items
  refine ⟨?_, ?_, ?_⟩
  · intro s
    rw [hss]
    exact finalize_mono _ (slotTotals items) store s
  · intro s hcount
    rw [he] at hcount
    rw [hss, he]
    by_cases hc0 : countSlotItems s items = 0
    · have hnokey : s ∉ (slotTotals items).map Prod.fst := by
        rw [mem_keys_slotTotals]
        simpa using hc0
      have hnone : ∀ e ∈ (execLoop env (slotTotals items) store items 0
          (execInitState ledger)).finalState.executionResults, ¬ e.slotId = s := by
        have := hall_le s
        rw [hc0] at this
        exact (countSlotAll_zero_iff s _).mp (by omega)
      have hmx : maxInsertedSeq s (execLoop env (slotTotals items) store items 0
          (execInitState ledger)).finalState.executionResults = 0 :=
        maxInsertedSeq_zero_of_no_success s _ fun e hein hslot =>
          absurd hslot (hnone e hein)
      rw [hmx]
      rw [(finalize_frame _ (slotTotals items) store s hnokey).1]
      simp
    · have hkey : s ∈ (slotTotals items).map Prod.fst :=
        (mem_keys_slotTotals items s).mpr hc0
      by_cases hmx : maxInsertedSeq s (execLoop env (slotTotals items) store items 0
          (execInitState ledger)).finalState.executionResults = 0
      · have hneg := ((finalize_value _ (slotTotals items) store
          (slotTotals_nodup items) s hkey).2 (fun hcond => hcond.2.2 ((i3 s).trans hmx)))
        rw [hneg.1, hmx]
        simp
      · have hfail : hasFailedInSlot s (execLoop env (slotTotals items) store items 0
            (execInitState ledger)).finalState.executionResults = false := by
          cases hfb : hasFailedInSlot s (execLoop env (slotTotals items) store items 0
            (execInitState ledger)).finalState.executionResults with
          | false => rfl
          | true =>
            have h1 := hasFailed_countSlotFailed s _ hfb
            have h2 := countSlot_split s (execLoop env (slotTotals items) store items 0
              (execInitState ledger)).finalState.executionResults
            have h3 := hall_le s
            omega
        have hpos := (finalize_value _ (slotTotals items) store
          (slotTotals_nodup items) s hkey).1
          ⟨(i2 s).trans hfail, by
            rw [i1 s, ← hcount, totalFor_slotTotals], (i3 s).trans_ne hmx⟩
        rw [hpos.1, i3 s]
  · intro s hfailed
    rw [he] at hfailed
    rw [hss]
    have hsf : (execLoop env (slotTotals items) store items 0
        (execInitState ledger)).finalState.slotFailed s = true := (i2 s).trans hfailed
    by_cases hkey : s ∈ (slotTotals items).map Prod.fst
    · exact ((finalize_value _ (slotTotals items) store (slotTotals_nodup items) s hkey).2
        (fun hcond => by rw [hsf] at hcond; exact absurd hcond.1 (by simp))).1
    · exact (finalize_frame _ (slotTotals items) store s hkey).1

/-- Environment of the C2 witness: the second item's insert fails. -/
def c2Env : ExecEnv :=
  { driveRootPath := "/drive"
    dedupErr := fun _ => none
    copy := fun idx => if idx = 0 then Except.ok 2 else Except.ok 3
    insertErr := fun idx => if idx = 0 then none else some "insert failed" }

/-- Item of slot A (succeeds) in the C2 witness. -/
def c2ItemA : ExecutionUploadItem :=
  { projectId := "proj-1", slotId := "slot-a", sourcePath := "/media/a.jpg"
    sourceFilename := "a.jpg", destinationFilename := "P_0007.jpg"
    destinationPath := "drive://P/slot/slot-a/P_0007.jpg", plannedSequence := 7
    sha256 := "sha-2a", sizeBytes := 2, projectCode := "P", slotCode := "SA"
    assetKind := "IMG", mimeType := "image/jpeg" }

/-- Item of slot B (fails at ledger insert) in the C2 witness. -/
def c2ItemB : ExecutionUploadItem :=
  { projectId := "proj-1", slotId := "slot-b", sourcePath := "/media/b.jpg"
    sourceFilename := "b.jpg", destinationFilename := "P_0001.jpg"
    destinationPath := "drive://P/slot/slot-b/P_0001.jpg", plannedSequence := 1
    sha256 := "sha-2b", sizeBytes := 3, projectCode := "P", slotCode := "SB"
    assetKind := "IMG", mimeType := "image/jpeg" }

/-- Initial slot counters of the C2 witness: slot A already at 5. -/
def c2Store : SlotStore := fun s => if s = "slot-a" then 5 else 0

/-- C2 witness: slot A (all items succeeded, batch max 7) advances to
`max 5 7 = 7`; slot B (failed item) keeps its counter; nothing
decreases. -/
theorem c2_slot_counter_advance_witness :
    (executePlan c2Env [c2ItemA, c2ItemB] [] c2Store).slotStore "slot-a" =
      max (c2Store "slot-a")
        (maxInsertedSeq "slot-a"
          (executePlan c2Env [c2ItemA, c2ItemB] [] c2Store).output.executionResults) ∧
    (executePlan c2Env [c2ItemA, c2ItemB] [] c2Store).slotStore "slot-b" =
      c2Store "slot-b" ∧
    c2Store "slot-a" ≤ (executePlan c2Env [c2ItemA, c2ItemB] [] c2Store).slotStore "slot-a" := by
  have h := c2_slot_counter_advance c2Env [c2ItemA, c2ItemB] [] c2Store
  exact ⟨h.2.1 "slot-a" (by decide), h.2.2 "slot-b" (by decide), h.1 "slot-a"⟩

/-! ### Claim C10 -/

/-- C10: sequence finalization issues a counter update only for slots with
at least one successfully uploaded item whose recorded batch-maximum
inserted sequence is nonzero; in particular a slot all of whose batch
items were dedup-skipped is never written at all. -/
theorem c10_skip_only_slot_never_written (env : ExecEnv)
    (items : List ExecutionUploadItem) (ledger : List LedgerEntry) (store : SlotStore) :
    (∀ s v, (s, v) ∈ (executePlan env items ledger store).slotUpdates →
      maxInsertedSeq s (executePlan env items ledger store).output.executionResults ≠ 0 ∧
      ∃ e ∈ (executePlan env items ledger store).output.executionResults,
        e.slotId = s ∧ e.status = UploadStatus.success ∧ e.plannedSequence ≠ 0) ∧
    (∀ s, (∀ e ∈ (executePlan env items ledger store).output.executionResults,
        e.slotId = s → e.status = UploadStatus.skipped) →
      ∀ v, (s, v) ∉ (executePlan env items ledger store).slotUpdates) := by
  simp only [executePlan]
  obtain ⟨hr, he, hl, hss, hsu⟩ :=
    execLoop_finalState env (slotTotals items) store items 0 (execInitState ledger)
  obtain ⟨i1, i2, i3⟩ :=
    execLoop_inv env (slotTotals items) store items 0 (execInitState ledger)
      (stInv_init ledger)
  constructor
  · intro s v hmem
    rw [hsu] at hmem
    obtain ⟨_, _, _, hmx, _⟩ := finalize_updates_sound _ (slotTotals items) store
      (slotTotals_nodup items) s v hmem
    rw [i3 s] at hmx
    rw [he]
    exact ⟨hmx, maxInsertedSeq_ne_zero_witness s _ hmx⟩
  · intro s hall v hmem
    rw [hsu] at hmem
    obtain ⟨_, _, _, hmx, _⟩ := finalize_updates_sound _ (slotTotals items) store
      (slotTotals_nodup items) s v hmem
    rw [i3 s] at hmx
    refine hmx (maxInsertedSeq_zero_of_no_success s _ ?_)
    intro e hein hslot hsucc
    have := hall e (by rw [he]; exact hein) hslot
    rw [this] at hsucc
    exact absurd hsucc (by simp)

/-- Environment of the C10 witness: the single item is dedup-skipped
(its sha256 is already completed in the ledger). -/
def c10Env : ExecEnv :=
  { driveRootPath := "/drive"
    dedupErr := fun _ => none
    copy := fun _ => Except.ok 2
    insertErr := fun _ => none }

/-- Batch item of the C10 witness. -/
def c10Item : ExecutionUploadItem :=
  { projectId := "proj-1", slotId := "slot-a", sourcePath := "/media/a.jpg"
    sourceFilename := "a.jpg", destinationFilename := "P_0001.jpg"
    destinationPath := "drive://P/slot/slot-a/P_0001.jpg", plannedSequence := 1
    sha256 := "sha-x", sizeBytes := 2, projectCode := "P", slotCode := "SA"
    assetKind := "IMG", mimeType := "image/jpeg" }

/-- Pre-existing completed ledger row matching the C10 item's content. -/
def c10Ledger : List LedgerEntry :=
  [{ projectId := "proj-1", slotId := "slot-z", filePath := "drive://old"
     originalFilename := "old.jpg", finalFilename := "Z_0001.jpg", sha256 := "sha-x"
     fileSize := 2, sequenceNumber := 1, isSourceFile := true }]

/-- C10 witness: the all-skipped slot receives no counter update (checked
at the written value 1, the only sequence in the batch). -/
theorem c10_skip_only_slot_never_written_witness :
    ("slot-a", 1) ∉
      (executePlan c10Env [c10Item] c10Ledger (fun _ => 0)).slotUpdates := by
  have h := c10_skip_only_slot_never_written c10Env [c10Item] c10Ledger (fun _ => 0)
  exact h.2 "slot-a" (by decide) 1

/-! ### Claim C3 -/

theorem execInitState_ledger (l : List LedgerEntry) : (execInitState l).ledger = l := rfl

/-- C3: content-addressed dedup.  The executor preserves the at-most-one
completed-entry-per-(projectId, sha256) invariant and never adds an entry
for a key already completed; an item whose sha256 is already completed for
its project — regardless of its source path or slot — is recorded as
`skipped` with the skip reason at its position, and the run consults
neither the copy stream nor the ledger insert for that position (the whole
outcome is unchanged under any environment differing only there). -/
theorem c3_content_dedup (env : ExecEnv) (items : List ExecutionUploadItem)
    (ledger : List LedgerEntry) (store : SlotStore) :
    ((∀ p h, countKey ledger p h ≤ 1) →
      ∀ p h, countKey (executePlan env items ledger store).ledger p h ≤ 1) ∧
    (∀ p h, projectUploadExistsBySha256 ledger p h = true →
      countKey (executePlan env items ledger store).ledger p h = countKey ledger p h) ∧
    (∀ i item, items.get? i = some item → env.dedupErr i = none →
      projectUploadExistsBySha256 ledger item.projectId item.sha256 = true →
      (i < (executePlan env items ledger store).output.results.length →
        (executePlan env items ledger store).output.results.get? i =
          some (skippedResultOf item) ∧
        (executePlan env items ledger store).output.executionResults.get? i =
          some (skippedExecOf item)) ∧
      (∀ env' : ExecEnv, env'.driveRootPath = env.driveRootPath →
        env'.dedupErr = env.dedupErr →
        (∀ j, j ≠ i → env'.copy j = env.copy j ∧ env'.insertErr j = env.insertErr j) →
        executePlan env' items ledger store = executePlan env items ledger store)) := by
  simp only [executePlan]
  have hinit : (execInitState ledger).ledger = ledger := rfl
  obtain ⟨hmono, hbound⟩ :=
    execLoop_ledger_inv env (slotTotals items) store items 0 (execInitState ledger)
  rw [hinit] at hmono hbound
  refine ⟨hbound, hmono, ?_⟩
  intro i item hget hd hm
  constructor
  · intro hlt
    have hres := execLoop_skip_at env (slotTotals items) store items 0
      (execInitState ledger) i item hget (by simpa using hd) hm rfl
      (by simpa [execInitState_results] using hlt)
    constructor
    · have := hres.1
      simpa [execInitState_results] using this
    · have := hres.2
      simpa [execInitState_results] using this
  · intro env' hdr hde hagree
    refine execLoop_skip_env_indep env env' (slotTotals items) store i hdr hde hagree hd
      items 0 (execInitState ledger) ?_
    intro item2 _ hget2
    simp only [Nat.sub_zero] at hget2
    rw [hget] at hget2
    injection hget2 with hitem
    rw [← hitem]
    exact hm

/-- Environment of the C3 witness: copy and insert would succeed, but the
item's content is already completed. -/
def c3Env : ExecEnv :=
  { driveRootPath := "/drive"
    dedupErr := fun _ => none
    copy := fun _ => Except.ok 2
    insertErr := fun _ => none }

/-- Batch item of the C3 witness, re-scanned at a new path and assigned to
a different slot than the original upload. -/
def c3Item : ExecutionUploadItem :=
  { projectId := "proj-1", slotId := "slot-new", sourcePath := "/media/renamed/copy.jpg"
    sourceFilename := "copy.jpg", destinationFilename := "P_0001.jpg"
    destinationPath := "drive://P/slot/slot-new/P_0001.jpg", plannedSequence := 1
    sha256 := "sha-dup", sizeBytes := 2, projectCode := "P", slotCode := "SN"
    assetKind := "IMG", mimeType := "image/jpeg" }

/-- Ledger of the C3 witness: the same content completed earlier from
another path into another slot. -/
def c3Ledger : List LedgerEntry :=
  [{ projectId := "proj-1", slotId := "slot-old", filePath := "drive://P/old"
     originalFilename := "original.jpg", finalFilename := "O_0003.jpg", sha256 := "sha-dup"
     fileSize := 2, sequenceNumber := 3, isSourceFile := true }]

/-- C3 witness: the item is recorded as skipped and the ledger still holds
exactly one completed entry for the key. -/
theorem c3_content_dedup_witness :
    (executePlan c3Env [c3Item] c3Ledger (fun _ => 0)).output.results.get? 0 =
      some (skippedResultOf c3Item) ∧
    countKey (executePlan c3Env [c3Item] c3Ledger (fun _ => 0)).ledger "proj-1" "sha-dup" ≤ 1 := by
  have h := c3_content_dedup c3Env [c3Item] c3Ledger (fun _ => 0)
  refine ⟨?_, ?_⟩
  · exact ((h.2.2 0 c3Item rfl rfl (by decide)).1 (by decide)).1
  · refine h.1 ?_ "proj-1" "sha-dup"
    intro p h2
    exact List.length_filter_le _ c3Ledger
